import Mathlib

/-!
# Verification of the profiler snapshot-to-record marshalling core

This development embeds, in Lean, the two profiler variants of the
repository (the inspector-session based variant in `lib/profiler/index.js`
and the pprof based variant) and proves or refutes the specification's
claims about them.

Modelling conventions:

* JavaScript numbers are modelled as `Int` (all quantities handled by the
  code are integers); the one place a `NaN` can arise (`0/0` in the CPU
  delta fallback) is modelled explicitly with `Option Int`, `none`
  standing for `NaN`.
* Records (JS objects used as string-keyed maps) are modelled as
  association lists with unique keys; `setA` is property write (overwrite
  in place or append), `delA` is the `delete` operator, `getA` is property
  read.
* `${'$'}{n}` string interpolation of a number is modelled by `natRepr`, a
  structural decimal-representation function proved injective below.
-/

namespace Profiler

/-- A JS value stored in an attribute record: a number, the `NaN` number,
or a string. -/
inductive AttrVal where
  | num (n : Int)
  | nan
  | str (s : String)
deriving DecidableEq, Repr

/-- JS truthiness of an attribute value (`NaN` is falsy, `0` is falsy,
`""` is falsy). -/
def jsTruthy : AttrVal → Bool
  | .num n => n ≠ 0
  | .nan => false
  | .str s => s ≠ ""

/-- Association-list read: JS property read `o[k]`. -/
def getA {α : Type} (l : List (String × α)) (k : String) : Option α :=
  match l with
  | [] => none
  | e :: rest => if e.1 = k then some e.2 else getA rest k

/-- Association-list write: JS property write `o[k] = v` (overwrite the
existing entry in place, else append). -/
def setA {α : Type} (l : List (String × α)) (k : String) (v : α) :
    List (String × α) :=
  match l with
  | [] => [(k, v)]
  | e :: rest => if e.1 = k then (k, v) :: rest else e :: setA rest k v

/-- Association-list delete: JS `delete o[k]`. -/
def delA {α : Type} (l : List (String × α)) (k : String) :
    List (String × α) :=
  match l with
  | [] => []
  | e :: rest => if e.1 = k then delA rest k else e :: delA rest k

theorem getA_setA_self {α : Type} (l : List (String × α)) (k : String)
    (v : α) : getA (setA l k v) k = some v := by
  induction l with
  | nil => simp [setA, getA]
  | cons e rest ih =>
    by_cases h : e.1 = k
    · simp [setA, h, getA]
    · simp [setA, h, getA, ih]

theorem getA_setA_ne {α : Type} (l : List (String × α)) (k k' : String)
    (v : α) (h : k ≠ k') : getA (setA l k v) k' = getA l k' := by
  induction l with
  | nil => simp [setA, getA, h]
  | cons e rest ih =>
    by_cases he : e.1 = k
    · simp [setA, he, getA, h, he ▸ h]
    · by_cases he' : e.1 = k'
      · simp [setA, he, getA, he', h, Ne.symm h]
      · simp [setA, he, getA, he', ih]

theorem getA_delA_self {α : Type} (l : List (String × α)) (k : String) :
    getA (delA l k) k = none := by
  induction l with
  | nil => simp [delA, getA]
  | cons e rest ih =>
    by_cases h : e.1 = k
    · simp [delA, h, ih]
    · simp [delA, h, getA, ih]

theorem getA_delA_ne {α : Type} (l : List (String × α)) (k k' : String)
    (h : k ≠ k') : getA (delA l k) k' = getA l k' := by
  induction l with
  | nil => simp [delA, getA]
  | cons e rest ih =>
    by_cases he : e.1 = k
    · have he' : e.1 ≠ k' := he ▸ h
      simp [delA, he, getA, he', ih, h, Ne.symm h]
    · by_cases he' : e.1 = k'
      · simp [delA, he, getA, he', h, Ne.symm h]
      · simp [delA, he, getA, he', ih]

/-! ## Decimal representation of numbers interpolated into key strings

JS template literals such as `` `location.${'$'}{i}` `` interpolate the decimal
representation of the number.  `natRepr` is a structurally recursive
(fuel-based, hence kernel-reducible) decimal printer, proved injective
via `Nat.digits`. -/

/-- The character for one decimal digit. -/
def digitChar : Nat → Char
  | 0 => '0' | 1 => '1' | 2 => '2' | 3 => '3' | 4 => '4'
  | 5 => '5' | 6 => '6' | 7 => '7' | 8 => '8' | 9 => '9'
  | _ => '0'

theorem digitChar_ne_underscore (d : Nat) : digitChar d ≠ '_' := by
  unfold digitChar; split <;> decide

theorem digitChar_inj_lt : ∀ d < 10, ∀ e < 10,
    digitChar d = digitChar e → d = e := by decide

/-- Little-endian decimal digits, with explicit fuel for structural
recursion. -/
def digitsRevFuel : Nat → Nat → List Nat
  | 0, _ => []
  | fuel + 1, n => if n = 0 then [] else n % 10 :: digitsRevFuel fuel (n / 10)

theorem digitsRevFuel_eq_digits :
    ∀ n fuel, n ≤ fuel → digitsRevFuel fuel n = Nat.digits 10 n := by
  intro n
  induction n using Nat.strong_induction_on with
  | _ n ih =>
    intro fuel hle
    match fuel with
    | 0 =>
      interval_cases n
      simp [digitsRevFuel]
    | f + 1 =>
      by_cases hn : n = 0
      · simp [digitsRevFuel, hn]
      · have hpos : 0 < n := Nat.pos_of_ne_zero hn
        have hlt : n / 10 < n := Nat.div_lt_self hpos (by norm_num)
        have hle' : n / 10 ≤ f := by omega
        rw [digitsRevFuel, if_neg hn, ih (n / 10) hlt f hle',
          Nat.digits_def' (by norm_num : (1 : ℕ) < 10) hpos]

/-- Decimal string representation of a natural number, as produced by JS
template-literal interpolation. -/
def natRepr (n : Nat) : String :=
  if n = 0 then "0" else String.mk (((digitsRevFuel n n).reverse).map digitChar)

theorem natRepr_ne_underscore (n : Nat) :
    ∀ c ∈ (natRepr n).data, c ≠ '_' := by
  intro c hc
  unfold natRepr at hc
  by_cases hn : n = 0
  · simp [hn] at hc
    subst hc; decide
  · simp only [if_neg hn] at hc
    obtain ⟨d, _, rfl⟩ := List.mem_map.mp hc
    exact digitChar_ne_underscore d

theorem map_digitChar_inj (l₁ l₂ : List Nat)
    (h₁ : ∀ x ∈ l₁, x < 10) (h₂ : ∀ x ∈ l₂, x < 10)
    (h : l₁.map digitChar = l₂.map digitChar) : l₁ = l₂ := by
  induction l₁ generalizing l₂ with
  | nil => cases l₂ <;> simp_all
  | cons a t ih =>
    cases l₂ with
    | nil => simp_all
    | cons b t₂ =>
      simp only [List.map_cons, List.cons.injEq] at h
      have ha := h₁ a (by simp)
      have hb := h₂ b (by simp)
      have hab : a = b := digitChar_inj_lt a ha b hb h.1
      subst hab
      exact congrArg _ (ih t₂ (fun x hx => h₁ x (by simp [hx]))
        (fun x hx => h₂ x (by simp [hx])) h.2)

theorem natRepr_data_of_ne_zero (n : Nat) (hn : n ≠ 0) :
    (natRepr n).data = ((Nat.digits 10 n).reverse).map digitChar := by
  unfold natRepr
  rw [if_neg hn, digitsRevFuel_eq_digits n n le_rfl]

theorem natRepr_eq_zero_imp (n : Nat) (h : natRepr n = "0") : n = 0 := by
  by_contra hn
  have hd := congrArg String.data h
  rw [natRepr_data_of_ne_zero n hn] at hd
  have h0 : (Nat.digits 10 n).reverse = [0] := by
    apply map_digitChar_inj
    · intro x hx
      exact Nat.digits_lt_base (by norm_num) (by simpa using hx)
    · intro x hx
      simp at hx
      omega
    · exact hd
  have hdig : Nat.digits 10 n = [0] := by
    have := congrArg List.reverse h0
    simpa using this
  have := congrArg (Nat.ofDigits 10) hdig
  rw [Nat.ofDigits_digits] at this
  simp [Nat.ofDigits] at this
  exact hn this

theorem natRepr_inj (m n : Nat) (h : natRepr m = natRepr n) : m = n := by
  by_cases hm : m = 0
  · subst hm
    have : natRepr n = "0" := by rw [← h]; rfl
    exact (natRepr_eq_zero_imp n this).symm
  · by_cases hn : n = 0
    · subst hn
      have : natRepr m = "0" := by rw [h]; rfl
      exact natRepr_eq_zero_imp m this
    · have hd := congrArg String.data h
      rw [natRepr_data_of_ne_zero m hm, natRepr_data_of_ne_zero n hn] at hd
      have hrev : (Nat.digits 10 m).reverse = (Nat.digits 10 n).reverse := by
        apply map_digitChar_inj
        · intro x hx
          exact Nat.digits_lt_base (by norm_num) (by simpa using hx)
        · intro x hx
          exact Nat.digits_lt_base (by norm_num) (by simpa using hx)
        · exact hd
      have hdig : Nat.digits 10 m = Nat.digits 10 n := by
        have := congrArg List.reverse hrev
        simpa using this
      have := congrArg (Nat.ofDigits 10) hdig
      rwa [Nat.ofDigits_digits, Nat.ofDigits_digits] at this

/-- The record key written for stack frame `i`: JS `` `location.${'$'}{i}` ``. -/
def locKey (i : Nat) : String := "location." ++ natRepr i

theorem locKey_inj (i j : Nat) (h : locKey i = locKey j) : i = j := by
  apply natRepr_inj
  have hd := congrArg String.data h
  rw [locKey, locKey, String.data_append, String.data_append] at hd
  exact String.ext (List.append_cancel_left hd)

theorem locKey_no_underscore (i : Nat) : '_' ∉ (locKey i).data := by
  intro hc
  rw [locKey, String.data_append] at hc
  rcases List.mem_append.mp hc with h | h
  · revert h; decide
  · exact natRepr_ne_underscore i '_' h rfl

/-- A key that contains an underscore is never a location key. -/
theorem ne_locKey_of_underscore (k : String) (h : '_' ∈ k.data) (i : Nat) :
    k ≠ locKey i := by
  intro he
  exact locKey_no_underscore i (he ▸ h)

/-! ## The metric-name normalizer (pprof variant)

`_normalizeAttrNameFromSampleValueType(typeName, unitName)` concatenates
`` `${'$'}{typeName}_${'$'}{unitName}` `` and calls `String.replace` with the regex
`/(\p{White_Space})|(\p{L})|(_)/u` — note: *without* the `g` flag.  JS
`replace` with a non-global regex rewrites only the *first* match, so
only the first character that is whitespace, a letter, or an underscore
is transformed (whitespace to `_`, a letter or `_` to itself); every
other character, before or after, is left untouched.

`jsWhiteSpace` is the exact Unicode `White_Space` set (25 code points).
`\p{L}` is modelled on the ASCII range (`Char.isAlpha`); the lemmas
proved below (existence of a single-character replacement preserving all
other characters, hence preservation of the `_` joiner) do not depend on
which characters the letter class contains. -/

/-- The Unicode `White_Space` character class used by `\p{White_Space}`. -/
def jsWhiteSpace (c : Char) : Bool :=
  c.toNat ∈ [0x9, 0xA, 0xB, 0xC, 0xD, 0x20, 0x85, 0xA0, 0x1680,
    0x2000, 0x2001, 0x2002, 0x2003, 0x2004, 0x2005, 0x2006, 0x2007,
    0x2008, 0x2009, 0x200A, 0x2028, 0x2029, 0x202F, 0x205F, 0x3000]

/-- The `\p{L}` letter class, modelled on the ASCII range. -/
def jsLetter (c : Char) : Bool := c.isAlpha

/-- One `String.replace` step with the non-global regex
`/(\p{White_Space})|(\p{L})|(_)/u`: find the first character matching one
of the three alternatives, apply the replacement function to it, and
leave the rest of the string untouched. -/
def replaceFirstNorm : List Char → List Char
  | [] => []
  | c :: rest =>
    if jsWhiteSpace c then '_' :: rest
    else if jsLetter c || c = '_' then c :: rest
    else c :: replaceFirstNorm rest

/-- `_normalizeAttrNameFromSampleValueType` from the pprof profiler
variant. -/
def _normalizeAttrNameFromSampleValueType (typeName unitName : String) :
    String :=
  String.mk (replaceFirstNorm (typeName ++ "_" ++ unitName).data)

theorem underscore_mem_replaceFirstNorm (l : List Char) (h : '_' ∈ l) :
    '_' ∈ replaceFirstNorm l := by
  induction l with
  | nil => simp at h
  | cons c rest ih =>
    by_cases hw : jsWhiteSpace c
    · simp [replaceFirstNorm, hw]
    · by_cases hl : jsLetter c || c = '_'
      · simpa [replaceFirstNorm, hw, hl] using h
      · have hne : c ≠ '_' := by
          intro he
          simp [he] at hl
        rcases List.mem_cons.mp h with he | hm
        · exact absurd he.symm hne
        · simp [replaceFirstNorm, hw, hl, ih hm]

/-- Every dynamic metric key produced by the normalizer contains an
underscore (the joiner between type name and unit name survives the
single-character replacement). -/
theorem normalize_has_underscore (t u : String) :
    '_' ∈ (_normalizeAttrNameFromSampleValueType t u).data := by
  apply underscore_mem_replaceFirstNorm
  rw [String.data_append, String.data_append]
  simp

/-- A dynamic metric key is never a location key. -/
theorem normalize_ne_locKey (t u : String) (i : Nat) :
    _normalizeAttrNameFromSampleValueType t u ≠ locKey i :=
  ne_locKey_of_underscore _ (normalize_has_underscore t u) i

/-! ## The inspector-session CPU profile marshaller (`lib/profiler/index.js`)

Nodes arrive as a flat list; linking builds an id-to-node map (last
writer wins, as JS property assignment overwrites) and a child-id to
parent-id map.  Parent references are JS object references; they are
modelled by node ids, which coincides with the reference semantics on
snapshots whose node ids are unique (the only well-formed inputs).  The
walk from a sample's node to the root is given explicit fuel
(`nodes.length` suffices on tree-shaped input); on a malformed cyclic
input the JS loop would not terminate at all. -/

/-- A V8 call frame. -/
structure CallFrame where
  functionName : String
  lineNumber : Int
deriving DecidableEq, Repr

/-- A node of the flat CPU profile node list. -/
structure CpuNode where
  id : Nat
  callFrame : CallFrame
  children : Option (List Nat)
deriving DecidableEq, Repr

/-- A raw CPU profile as delivered by `Profiler.stop`. -/
structure CpuProfile where
  nodes : List CpuNode
  samples : List Nat
  startTime : Int
  endTime : Int
  timeDeltas : List Int
deriving DecidableEq, Repr

/-- Decimal representation of a (possibly negative) JS integer. -/
def intRepr (i : Int) : String :=
  if i < 0 then "-" ++ natRepr i.natAbs else natRepr i.toNat

/-- `_locationFromCallFrame`: `name:lineNumber` from a node's call frame,
with `(unknown)` for a falsy (empty) function name.  Shared by the CPU
and heap walks, as in the source. -/
def _locationFromCallFrame (cf : CallFrame) : String :=
  (if cf.functionName ≠ "" then cf.functionName
   else "(unknown)") ++ ":" ++ intRepr cf.lineNumber

/-- First marshalling pass: `nodeMap[id] = node` for each node in list
order (later assignments overwrite earlier ones). -/
def buildCpuNodeMap (nodes : List CpuNode) : Nat → Option CpuNode :=
  nodes.foldl (fun m node => fun x => if x = node.id then some node else m x)
    (fun _ => none)

/-- Second marshalling pass: for each node, set `childNode.parent = n` for
every declared child that resolves in the node map; a child id with no
matching node is skipped. -/
def buildCpuParentMap (nodes : List CpuNode)
    (nodeMap : Nat → Option CpuNode) : Nat → Option Nat :=
  nodes.foldl
    (fun pm node =>
      match nodeMap node.id with
      | none => pm
      | some n =>
        match n.children with
        | none => pm
        | some cs =>
          cs.foldl
            (fun pm' c =>
              match nodeMap c with
              | none => pm'
              | some _ => fun x => if x = c then some n.id else pm' x)
            pm)
    (fun _ => none)

/-- The walk in `_addLocation`:
`for (let node = nodeMap[sampleId]; node; node = node.parent)` collecting
`_locationFromCallFrame(node)`. -/
def walkChain (nodeMap : Nat → Option CpuNode)
    (parentMap : Nat → Option Nat) : Nat → Option Nat → List String
  | 0, _ => []
  | _, none => []
  | fuel + 1, some nid =>
    match nodeMap nid with
    | none => []
    | some n =>
      _locationFromCallFrame n.callFrame ::
        walkChain nodeMap parentMap fuel (parentMap nid)

/-- The second loop of `_addLocation`: for ascending `i` and descending
`j`, `event[`location.${'$'}{i}`] = location[j]`. -/
def writeLocations (event : List (String × AttrVal))
    (location : List String) : List (String × AttrVal) :=
  (List.range location.length).foldl
    (fun ev i =>
      setA ev (locKey i) (.str (location.getD (location.length - 1 - i) "")))
    event

/-- `_addLocation(event, sampleId, nodeMap)`. -/
def _addLocation (event : List (String × AttrVal)) (sampleId : Nat)
    (nodeMap : Nat → Option CpuNode) (parentMap : Nat → Option Nat)
    (fuel : Nat) : List (String × AttrVal) :=
  writeLocations event (walkChain nodeMap parentMap fuel (some sampleId))

/-- JS `Math.floor(sum / count)` on integer inputs: `NaN` (`none`) when
`count = 0`, else exact floor division. -/
def jsFloorDiv (sum : Int) (count : Nat) : Option Int :=
  if count = 0 then none else some (Int.fdiv sum count)

/-- Floor of the arithmetic mean of a list of integers; undefined (`NaN`
in JS) for the empty list. -/
def floorMean (l : List Int) : Option Int :=
  if l.length = 0 then none else some (Int.fdiv l.sum l.length)

/-- `delta * 1000` with `NaN` propagation. -/
def scaleNs : Option Int → AttrVal
  | some n => .num (n * 1000)
  | none => .nan

/-- One CPU event before `_addLocation`, exactly the object literal of
`_marshalCpuProfileToEvents`, then `_addLocation` applied to it. -/
def mkCpuEvent (harvestSeq : Int) (p : CpuProfile) (i : Nat)
    (delta : Option Int) (sampleId : Nat) (nodeMap : Nat → Option CpuNode)
    (parentMap : Nat → Option Nat) : List (String × AttrVal) :=
  _addLocation
    [("harvest_seq", .num harvestSeq),
     ("sample_seq", .num i),
     ("sample_period_cpu_nanoseconds", scaleNs delta),
     ("duration_ns", .num ((p.endTime - p.startTime) * 1000)),
     ("time_ns", .num (p.startTime * 1000)),
     ("cpu_nanoseconds", scaleNs delta),
     ("samples_count", .num p.samples.length)]
    sampleId nodeMap parentMap p.nodes.length

/-- The sample loop of `_marshalCpuProfileToEvents`, threading the loop
counter `i` and the running `count`/`sum` of consumed deltas. -/
def cpuEventsAux (harvestSeq : Int) (p : CpuProfile)
    (nodeMap : Nat → Option CpuNode) (parentMap : Nat → Option Nat) :
    List Nat → Nat → Nat → Int → List (List (String × AttrVal))
  | [], _, _, _ => []
  | s :: rest, i, count, sum =>
    if h : i + 1 < p.timeDeltas.length then
      mkCpuEvent harvestSeq p i (some (p.timeDeltas.get ⟨i + 1, h⟩)) s
          nodeMap parentMap ::
        cpuEventsAux harvestSeq p nodeMap parentMap rest (i + 1) (count + 1)
          (sum + p.timeDeltas.get ⟨i + 1, h⟩)
    else
      mkCpuEvent harvestSeq p i (jsFloorDiv sum count) s nodeMap parentMap ::
        cpuEventsAux harvestSeq p nodeMap parentMap rest (i + 1) count sum

/-- `_marshalCpuProfileToEvents(harvestSeq, profile)`. -/
def _marshalCpuProfileToEvents (harvestSeq : Int) (p : CpuProfile) :
    List (List (String × AttrVal)) :=
  cpuEventsAux harvestSeq p (buildCpuNodeMap p.nodes)
    (buildCpuParentMap p.nodes (buildCpuNodeMap p.nodes)) p.samples 0 0 0

/-- The delta the spec assigns to sample `i`: the look-ahead delta at
position `i + 1` when it exists, otherwise the floored mean of all deltas
consumed so far (which, at any fallback position, is the whole tail of
`timeDeltas`). -/
def cpuDeltaSpec (timeDeltas : List Int) (i : Nat) : Option Int :=
  if h : i + 1 < timeDeltas.length then some (timeDeltas.get ⟨i + 1, h⟩)
  else floorMean (timeDeltas.drop 1)

theorem getA_foldl_setA_of_forall_ne (is : List Nat) (g : Nat → AttrVal)
    (ev : List (String × AttrVal)) (k : String)
    (hk : ∀ j ∈ is, k ≠ locKey j) :
    getA (is.foldl (fun e i => setA e (locKey i) (g i)) ev) k = getA ev k := by
  induction is generalizing ev with
  | nil => rfl
  | cons i t ih =>
    rw [List.foldl_cons, ih _ (fun j hj => hk j (by simp [hj])),
      getA_setA_ne _ _ _ _ (Ne.symm (hk i (by simp)))]

theorem getA_foldl_setA_mem (is : List Nat) (hnd : is.Nodup)
    (g : Nat → AttrVal) (ev : List (String × AttrVal)) (m : Nat)
    (hm : m ∈ is) :
    getA (is.foldl (fun e i => setA e (locKey i) (g i)) ev) (locKey m) =
      some (g m) := by
  induction is generalizing ev with
  | nil => simp at hm
  | cons i t ih =>
    rcases List.nodup_cons.mp hnd with ⟨hit, hndt⟩
    rcases List.mem_cons.mp hm with he | hmt
    · subst he
      rw [List.foldl_cons,
        getA_foldl_setA_of_forall_ne t g _ _
          (fun j hj he => hit (locKey_inj m j he ▸ hj)),
        getA_setA_self]
    · rw [List.foldl_cons, ih hndt _ hmt]

theorem getA_writeLocations_locKey (ev : List (String × AttrVal))
    (L : List String) (m : Nat) :
    getA (writeLocations ev L) (locKey m) =
      if m < L.length then (L.reverse.get? m).map AttrVal.str
      else getA ev (locKey m) := by
  by_cases hm : m < L.length
  · rw [if_pos hm, writeLocations,
      getA_foldl_setA_mem _ (List.nodup_range _) _ _ _
        (List.mem_range.mpr hm)]
    have h1 : L.length - 1 - m < L.length := by omega
    rw [List.get?_reverse hm, List.getD_eq_getElem?_getD,
      List.get?_eq_getElem?, List.getElem?_eq_getElem h1]
    rfl
  · rw [if_neg hm, writeLocations,
      getA_foldl_setA_of_forall_ne _ _ _ _
        (fun j hj he =>
          hm (locKey_inj m j he ▸ List.mem_range.mp hj))]

theorem getA_writeLocations_of_underscore (ev : List (String × AttrVal))
    (L : List String) (k : String) (hk : '_' ∈ k.data) :
    getA (writeLocations ev L) k = getA ev k :=
  getA_foldl_setA_of_forall_ne _ _ _ _
    (fun j _ => ne_locKey_of_underscore k hk j)

theorem getA_mkCpuEvent_cpu_ns (hs : Int) (p : CpuProfile) (i : Nat)
    (delta : Option Int) (s : Nat) (nm : Nat → Option CpuNode)
    (pm : Nat → Option Nat) :
    getA (mkCpuEvent hs p i delta s nm pm) "cpu_nanoseconds" =
      some (scaleNs delta) := by
  rw [mkCpuEvent, _addLocation,
    getA_writeLocations_of_underscore _ _ _ (by decide)]
  rfl

theorem getA_mkCpuEvent_period (hs : Int) (p : CpuProfile) (i : Nat)
    (delta : Option Int) (s : Nat) (nm : Nat → Option CpuNode)
    (pm : Nat → Option Nat) :
    getA (mkCpuEvent hs p i delta s nm pm) "sample_period_cpu_nanoseconds" =
      some (scaleNs delta) := by
  rw [mkCpuEvent, _addLocation,
    getA_writeLocations_of_underscore _ _ _ (by decide)]
  rfl

theorem cpuEventsAux_get? (hs : Int) (p : CpuProfile)
    (nm : Nat → Option CpuNode) (pm : Nat → Option Nat) :
    ∀ (ss : List Nat) (i₀ k : Nat),
      (cpuEventsAux hs p nm pm ss i₀ (min i₀ (p.timeDeltas.length - 1))
          (((p.timeDeltas.drop 1).take i₀).sum)).get? k =
        (ss.get? k).map
          (fun s => mkCpuEvent hs p (i₀ + k)
            (cpuDeltaSpec p.timeDeltas (i₀ + k)) s nm pm) := by
  intro ss
  induction ss with
  | nil => intro i₀ k; rfl
  | cons s rest ih =>
    intro i₀ k
    by_cases h : i₀ + 1 < p.timeDeltas.length
    · have hmin : min i₀ (p.timeDeltas.length - 1) = i₀ := by omega
      have hmin' : min (i₀ + 1) (p.timeDeltas.length - 1) = i₀ + 1 := by omega
      have hsum : ((p.timeDeltas.drop 1).take (i₀ + 1)).sum =
          ((p.timeDeltas.drop 1).take i₀).sum +
            p.timeDeltas.get ⟨i₀ + 1, h⟩ := by
        rw [List.take_succ, List.sum_append, List.getElem?_drop,
          (show 1 + i₀ = i₀ + 1 by omega), List.getElem?_eq_getElem h]
        simp
      rw [cpuEventsAux, dif_pos h]
      match k with
      | 0 =>
        simp only [List.get?_cons_zero, Option.map_some', Nat.add_zero]
        rw [cpuDeltaSpec, dif_pos h]
      | k + 1 =>
        simp only [List.get?_cons_succ]
        have key := ih (i₀ + 1) k
        rw [hmin', hsum,
          (show i₀ + 1 + k = i₀ + (k + 1) by omega)] at key
        rw [hmin, key]
    · have hmin : min i₀ (p.timeDeltas.length - 1) =
          p.timeDeltas.length - 1 := by omega
      have hmin' : min (i₀ + 1) (p.timeDeltas.length - 1) =
          p.timeDeltas.length - 1 := by omega
      have hlen : (p.timeDeltas.drop 1).length = p.timeDeltas.length - 1 :=
        List.length_drop 1 p.timeDeltas
      have htake : (p.timeDeltas.drop 1).take i₀ = p.timeDeltas.drop 1 :=
        List.take_all_of_le (by rw [hlen]; omega)
      have htake' : (p.timeDeltas.drop 1).take (i₀ + 1) =
          p.timeDeltas.drop 1 :=
        List.take_all_of_le (by rw [hlen]; omega)
      rw [cpuEventsAux, dif_neg h]
      match k with
      | 0 =>
        simp only [List.get?_cons_zero, Option.map_some', Nat.add_zero]
        rw [cpuDeltaSpec, dif_neg h]
        have hdiv : jsFloorDiv ((p.timeDeltas.drop 1).take i₀).sum
            (min i₀ (p.timeDeltas.length - 1)) =
            floorMean (p.timeDeltas.drop 1) := by
          rw [htake, hmin]
          simp only [jsFloorDiv, floorMean, hlen]
        rw [hdiv]
      | k + 1 =>
        simp only [List.get?_cons_succ]
        have key := ih (i₀ + 1) k
        rw [hmin', htake',
          (show i₀ + 1 + k = i₀ + (k + 1) by omega)] at key
        rw [hmin, htake, key]

/-- The marshalled CPU event list, element by element: event `k` exists
iff sample `k` does, and carries the spec delta for position `k`. -/
theorem marshalCpu_get? (hs : Int) (p : CpuProfile) (k : Nat) :
    (_marshalCpuProfileToEvents hs p).get? k =
      (p.samples.get? k).map
        (fun s => mkCpuEvent hs p k (cpuDeltaSpec p.timeDeltas k) s
          (buildCpuNodeMap p.nodes)
          (buildCpuParentMap p.nodes (buildCpuNodeMap p.nodes))) := by
  have h := cpuEventsAux_get? hs p (buildCpuNodeMap p.nodes)
    (buildCpuParentMap p.nodes (buildCpuNodeMap p.nodes)) p.samples 0 k
  simpa [_marshalCpuProfileToEvents] using h

/-- **C1.** For every CPU snapshot, the marshaller assigns sample `i` the
delta at position `i + 1` of `timeDeltas` when that position exists, and
otherwise the floor of the arithmetic mean of all deltas consumed so far
(at any such position that is the whole tail of `timeDeltas`; the mean of
zero consumed deltas is undefined, i.e. `NaN`); in particular for
`timeDeltas = [d0, d1, d2]` and 3 samples, sample 0 gets `d1`, sample 1
gets `d2`, and sample 2 gets `floor((d1 + d2) / 2)`. -/
theorem claim_c1_cpu_delta :
    (∀ (hs : Int) (p : CpuProfile) (i : Nat), i < p.samples.length →
      ∃ ev, (_marshalCpuProfileToEvents hs p).get? i = some ev ∧
        getA ev "cpu_nanoseconds" =
          some (scaleNs (cpuDeltaSpec p.timeDeltas i)) ∧
        getA ev "sample_period_cpu_nanoseconds" =
          some (scaleNs (cpuDeltaSpec p.timeDeltas i))) ∧
    (∀ d0 d1 d2 : Int,
      cpuDeltaSpec [d0, d1, d2] 0 = some d1 ∧
      cpuDeltaSpec [d0, d1, d2] 1 = some d2 ∧
      cpuDeltaSpec [d0, d1, d2] 2 = some ((d1 + d2).fdiv 2)) := by
  constructor
  · intro hs p i hi
    have hget : (_marshalCpuProfileToEvents hs p).get? i =
        some (mkCpuEvent hs p i (cpuDeltaSpec p.timeDeltas i)
          (p.samples.get ⟨i, hi⟩) (buildCpuNodeMap p.nodes)
          (buildCpuParentMap p.nodes (buildCpuNodeMap p.nodes))) := by
      rw [marshalCpu_get?, List.get?_eq_getElem?,
        List.getElem?_eq_getElem hi]
      rfl
    exact ⟨_, hget, getA_mkCpuEvent_cpu_ns hs p i _ _ _ _,
      getA_mkCpuEvent_period hs p i _ _ _ _⟩
  · intro d0 d1 d2
    refine ⟨?_, ?_, ?_⟩
    · rw [cpuDeltaSpec, dif_pos (by norm_num)]
      rfl
    · rw [cpuDeltaSpec, dif_pos (by norm_num)]
      rfl
    · rw [cpuDeltaSpec, dif_neg (by norm_num)]
      simp [floorMean]

/-- Witness for C1: a concrete snapshot with three samples and
`timeDeltas = [2, 7, 4]`, at the fallback position `i = 2`. -/
theorem claim_c1_cpu_delta_witness :
    (∃ ev,
      (_marshalCpuProfileToEvents 0
        ⟨[], [9, 9, 9], 0, 0, [2, 7, 4]⟩).get? 2 = some ev ∧
      getA ev "cpu_nanoseconds" =
        some (scaleNs (cpuDeltaSpec [2, 7, 4] 2)) ∧
      getA ev "sample_period_cpu_nanoseconds" =
        some (scaleNs (cpuDeltaSpec [2, 7, 4] 2))) ∧
    cpuDeltaSpec [2, 7, 4] 2 = some 5 :=
  ⟨claim_c1_cpu_delta.1 0 ⟨[], [9, 9, 9], 0, 0, [2, 7, 4]⟩ 2 (by decide),
   by decide⟩

/-- **C10.** When `timeDeltas` has fewer than two entries and the sample
list is non-empty, every sample takes the fallback branch with
`count = 0` and `sum = 0`, so the delta is the unguarded `0 / 0`
(JS `NaN`), and both delta-derived metrics of every record are `NaN`
rather than a defined integer. -/
theorem claim_c10_division_by_zero_count (hs : Int) (p : CpuProfile)
    (htd : p.timeDeltas.length < 2) (i : Nat) (hi : i < p.samples.length) :
    cpuDeltaSpec p.timeDeltas i = jsFloorDiv 0 0 ∧
    ∃ ev, (_marshalCpuProfileToEvents hs p).get? i = some ev ∧
      getA ev "cpu_nanoseconds" = some .nan ∧
      getA ev "sample_period_cpu_nanoseconds" = some .nan := by
  have hspec : cpuDeltaSpec p.timeDeltas i = none := by
    rw [cpuDeltaSpec, dif_neg (by omega)]
    rw [floorMean, if_pos (by rw [List.length_drop]; omega)]
  constructor
  · rw [hspec]; rfl
  · have hget : (_marshalCpuProfileToEvents hs p).get? i =
        some (mkCpuEvent hs p i (cpuDeltaSpec p.timeDeltas i)
          (p.samples.get ⟨i, hi⟩) (buildCpuNodeMap p.nodes)
          (buildCpuParentMap p.nodes (buildCpuNodeMap p.nodes))) := by
      rw [marshalCpu_get?, List.get?_eq_getElem?,
        List.getElem?_eq_getElem hi]
      rfl
    refine ⟨_, hget, ?_, ?_⟩
    · rw [getA_mkCpuEvent_cpu_ns, hspec]
      rfl
    · rw [getA_mkCpuEvent_period, hspec]
      rfl

/-- Witness for C10: a snapshot with one sample and an empty
`timeDeltas`. -/
theorem claim_c10_division_by_zero_count_witness :
    cpuDeltaSpec ([] : List Int) 0 = jsFloorDiv 0 0 ∧
    ∃ ev, (_marshalCpuProfileToEvents 0 ⟨[], [1], 0, 0, []⟩).get? 0 =
        some ev ∧
      getA ev "cpu_nanoseconds" = some .nan ∧
      getA ev "sample_period_cpu_nanoseconds" = some .nan :=
  claim_c10_division_by_zero_count 0 ⟨[], [1], 0, 0, []⟩ (by decide) 0
    (by decide)

theorem getA_eq_none_of_all_underscore {α : Type} (l : List (String × α))
    (h : ∀ e ∈ l, '_' ∈ e.1.data) (k : String) (hk : '_' ∉ k.data) :
    getA l k = none := by
  induction l with
  | nil => rfl
  | cons e rest ih =>
    have hne : e.1 ≠ k := fun he => hk (he ▸ h e (by simp))
    rw [getA, if_neg hne]
    exact ih (fun e' he' => h e' (by simp [he']))

theorem cpuBase_keys_underscore (hs : Int) (p : CpuProfile) (i : Nat)
    (delta : Option Int) :
    ∀ e ∈ [("harvest_seq", AttrVal.num hs),
      ("sample_seq", AttrVal.num i),
      ("sample_period_cpu_nanoseconds", scaleNs delta),
      ("duration_ns", AttrVal.num ((p.endTime - p.startTime) * 1000)),
      ("time_ns", AttrVal.num (p.startTime * 1000)),
      ("cpu_nanoseconds", scaleNs delta),
      ("samples_count", AttrVal.num p.samples.length)],
      '_' ∈ e.1.data := by
  intro e he
  fin_cases he
  · exact (by decide : '_' ∈ "harvest_seq".data)
  · exact (by decide : '_' ∈ "sample_seq".data)
  · exact (by decide : '_' ∈ "sample_period_cpu_nanoseconds".data)
  · exact (by decide : '_' ∈ "duration_ns".data)
  · exact (by decide : '_' ∈ "time_ns".data)
  · exact (by decide : '_' ∈ "cpu_nanoseconds".data)
  · exact (by decide : '_' ∈ "samples_count".data)

/-- **C3.** For every CPU snapshot and every sample, the `location.k`
attributes on the sample's record are exactly the strings collected by
walking from the sample's node to the root via `parent`, reversed:
`location.0` is the last element of the walk (the root on any input on
which the walk reaches the root), every index up to the walk length is
present, and no higher index is. -/
theorem claim_c3_stack_locations (hs : Int) (p : CpuProfile) (i : Nat)
    (hi : i < p.samples.length) :
    ∃ ev, (_marshalCpuProfileToEvents hs p).get? i = some ev ∧
      (∀ k, getA ev (locKey k) =
        ((walkChain (buildCpuNodeMap p.nodes)
            (buildCpuParentMap p.nodes (buildCpuNodeMap p.nodes))
            p.nodes.length (some (p.samples.get ⟨i, hi⟩))).reverse.get?
          k).map AttrVal.str) ∧
      getA ev (locKey 0) =
        ((walkChain (buildCpuNodeMap p.nodes)
            (buildCpuParentMap p.nodes (buildCpuNodeMap p.nodes))
            p.nodes.length
            (some (p.samples.get ⟨i, hi⟩))).getLast?).map AttrVal.str := by
  have hget : (_marshalCpuProfileToEvents hs p).get? i =
      some (mkCpuEvent hs p i (cpuDeltaSpec p.timeDeltas i)
        (p.samples.get ⟨i, hi⟩) (buildCpuNodeMap p.nodes)
        (buildCpuParentMap p.nodes (buildCpuNodeMap p.nodes))) := by
    rw [marshalCpu_get?, List.get?_eq_getElem?,
      List.getElem?_eq_getElem hi]
    rfl
  set chain := walkChain (buildCpuNodeMap p.nodes)
    (buildCpuParentMap p.nodes (buildCpuNodeMap p.nodes))
    p.nodes.length (some (p.samples.get ⟨i, hi⟩)) with hchain
  have hkey : ∀ k, getA (mkCpuEvent hs p i (cpuDeltaSpec p.timeDeltas i)
      (p.samples.get ⟨i, hi⟩) (buildCpuNodeMap p.nodes)
      (buildCpuParentMap p.nodes (buildCpuNodeMap p.nodes))) (locKey k) =
      (chain.reverse.get? k).map AttrVal.str := by
    intro k
    rw [mkCpuEvent, _addLocation, ← hchain, getA_writeLocations_locKey]
    by_cases hk : k < chain.length
    · rw [if_pos hk]
    · rw [if_neg hk,
        getA_eq_none_of_all_underscore _
          (cpuBase_keys_underscore hs p i (cpuDeltaSpec p.timeDeltas i)) _
          (locKey_no_underscore k),
        List.get?_eq_none.mpr (by simp; omega)]
      rfl
  refine ⟨_, hget, hkey, ?_⟩
  rw [hkey 0, ← List.head?_reverse, ← List.get?_zero]

/-- Witness for C3: the end-to-end example snapshot of the spec
(`root` with child `foo`, one sample on the leaf), on which the walk is
`["foo:10", "root:0"]`, so `location.0 = "root:0"` and
`location.1 = "foo:10"`. -/
theorem claim_c3_stack_locations_witness :
    (∃ ev, (_marshalCpuProfileToEvents 0
        ⟨[⟨1, ⟨"root", 0⟩, some [2]⟩, ⟨2, ⟨"foo", 10⟩, some []⟩],
         [2], 0, 100, [5, 15]⟩).get? 0 = some ev ∧
      (∀ k, getA ev (locKey k) =
        ((walkChain
            (buildCpuNodeMap
              [⟨1, ⟨"root", 0⟩, some [2]⟩, ⟨2, ⟨"foo", 10⟩, some []⟩])
            (buildCpuParentMap
              [⟨1, ⟨"root", 0⟩, some [2]⟩, ⟨2, ⟨"foo", 10⟩, some []⟩]
              (buildCpuNodeMap
                [⟨1, ⟨"root", 0⟩, some [2]⟩, ⟨2, ⟨"foo", 10⟩, some []⟩]))
            2 (some 2)).reverse.get? k).map AttrVal.str) ∧
      getA ev (locKey 0) =
        ((walkChain
            (buildCpuNodeMap
              [⟨1, ⟨"root", 0⟩, some [2]⟩, ⟨2, ⟨"foo", 10⟩, some []⟩])
            (buildCpuParentMap
              [⟨1, ⟨"root", 0⟩, some [2]⟩, ⟨2, ⟨"foo", 10⟩, some []⟩]
              (buildCpuNodeMap
                [⟨1, ⟨"root", 0⟩, some [2]⟩, ⟨2, ⟨"foo", 10⟩, some []⟩]))
            2 (some 2)).getLast?).map AttrVal.str) ∧
    walkChain
        (buildCpuNodeMap
          [⟨1, ⟨"root", 0⟩, some [2]⟩, ⟨2, ⟨"foo", 10⟩, some []⟩])
        (buildCpuParentMap
          [⟨1, ⟨"root", 0⟩, some [2]⟩, ⟨2, ⟨"foo", 10⟩, some []⟩]
          (buildCpuNodeMap
            [⟨1, ⟨"root", 0⟩, some [2]⟩, ⟨2, ⟨"foo", 10⟩, some []⟩]))
        2 (some 2) = ["foo:10", "root:0"] :=
  ⟨claim_c3_stack_locations 0
    ⟨[⟨1, ⟨"root", 0⟩, some [2]⟩, ⟨2, ⟨"foo", 10⟩, some []⟩],
     [2], 0, 100, [5, 15]⟩ 0 (by decide), by decide⟩

/-! ## The heap sampling profile marshaller (`lib/profiler/index.js`)

The heap profile arrives as a recursive tree (`head` with nested
`children`).  `_buildHeapNodeMap` installs a `parent` object reference on
every visited node and stores the node in the id map (later assignments
overwrite earlier ones, modelled by a last-entry-wins lookup).  A linked
node is modelled together with its chain of parent objects
(`LinkedNode`), which is exactly what the JS `parent` references give
when walking rootwards. -/

/-- A node of the recursive heap sampling profile tree. -/
inductive HeapTree where
  | node (id : Nat) (selfSize : Int) (callFrame : CallFrame)
      (children : List HeapTree)

/-- A heap node after linking: its own data plus the parent chain
installed by `_buildHeapNodeMap` (absent for the head node, whose
`parent` is never assigned). -/
inductive LinkedNode where
  | root (selfSize : Int) (callFrame : CallFrame)
  | child (selfSize : Int) (callFrame : CallFrame) (parent : LinkedNode)

/-- Attach a parent (or none) to a node's own data. -/
def mkLinked (s : Int) (cf : CallFrame) : Option LinkedNode → LinkedNode
  | none => .root s cf
  | some p => .child s cf p

/-- The loop of `_calculateInclusiveSize`:
`for (let node = ...; node; node = node.parent) size += node.selfSize`. -/
def chainSum : LinkedNode → Int
  | .root s _ => s
  | .child s _ p => s + chainSum p

/-- `chainSum` through an optional parent (`0` when absent, i.e. when the
JS loop does not run). -/
def psum : Option LinkedNode → Int
  | none => 0
  | some n => chainSum n

theorem chainSum_mkLinked (s : Int) (cf : CallFrame)
    (p : Option LinkedNode) : chainSum (mkLinked s cf p) = s + psum p := by
  cases p with
  | none => simp [mkLinked, chainSum, psum]
  | some q => simp [mkLinked, chainSum, psum]

theorem psum_some (n : LinkedNode) : psum (some n) = chainSum n := rfl

mutual

/-- `_buildHeapNodeMap` on one node: emit the map entry for the node
(linked to its parent), then recurse through children and siblings in
depth-first preorder, which is the entry order of the JS recursion. -/
def linkNode (p : Option LinkedNode) : HeapTree → List (Nat × LinkedNode)
  | .node id s cf cs =>
    (id, mkLinked s cf p) :: linkChildren (some (mkLinked s cf p)) cs

def linkChildren (p : Option LinkedNode) :
    List HeapTree → List (Nat × LinkedNode)
  | [] => []
  | c :: cs => linkNode p c ++ linkChildren p cs

end

/-- `nodeMap[head.id] = head` followed by `_buildHeapNodeMap(head, ...)`:
the head is entered with no parent. -/
def _buildHeapNodeMap (head : HeapTree) : List (Nat × LinkedNode) :=
  linkNode none head

/-- Lookup where the *last* entry for an id wins, as JS property
assignment overwrites earlier writes for the same id. -/
def lookupLastHN : List (Nat × LinkedNode) → Nat → Option LinkedNode
  | [], _ => none
  | e :: rest, k =>
    match lookupLastHN rest k with
    | some v => some v
    | none => if e.1 = k then some e.2 else none

/-- `_calculateInclusiveSize(nodeId, nodeMap)`: `0` when the id resolves
to no node (the JS loop body never runs), else the sum of `selfSize`
along the parent chain. -/
def _calculateInclusiveSize (nodeId : Nat)
    (nodeMap : List (Nat × LinkedNode)) : Int :=
  match lookupLastHN nodeMap nodeId with
  | none => 0
  | some n => chainSum n

mutual

/-- All node ids of a heap tree, preorder. -/
def treeIds : HeapTree → List Nat
  | .node id _ _ cs => id :: treeIdsL cs

def treeIdsL : List HeapTree → List Nat
  | [] => []
  | c :: cs => treeIds c ++ treeIdsL cs

end

mutual

/-- The ancestor chain from the root down to the node with the given id:
the list of `(id, selfSize)` pairs of exactly the nodes on the parent
chain from the node up to and including the root (in root-first order).
This is the specification-side description of the chain; `none` when the
id does not occur. -/
def pathTo (nid : Nat) : HeapTree → Option (List (Nat × Int))
  | .node id s _ cs =>
    if id = nid then some [(id, s)]
    else
      match pathToL nid cs with
      | some path => some ((id, s) :: path)
      | none => none

def pathToL (nid : Nat) : List HeapTree → Option (List (Nat × Int))
  | [] => none
  | c :: cs =>
    match pathTo nid c with
    | some path => some path
    | none => pathToL nid cs

end

mutual

/-- Add `d` to the `selfSize` of every node whose id is `aid`. -/
def bumpSelfSize (aid : Nat) (d : Int) : HeapTree → HeapTree
  | .node id s cf cs =>
    .node id (if id = aid then s + d else s) cf (bumpSelfSizeL aid d cs)

def bumpSelfSizeL (aid : Nat) (d : Int) : List HeapTree → List HeapTree
  | [] => []
  | c :: cs => bumpSelfSize aid d c :: bumpSelfSizeL aid d cs

end

/-- The effect of `bumpSelfSize` on an ancestor chain. -/
def bumpPath (aid : Nat) (d : Int) (path : List (Nat × Int)) :
    List (Nat × Int) :=
  path.map (fun e => (e.1, if e.1 = aid then e.2 + d else e.2))

theorem lookupLastHN_append (a b : List (Nat × LinkedNode)) (k : Nat) :
    lookupLastHN (a ++ b) k =
      match lookupLastHN b k with
      | some v => some v
      | none => lookupLastHN a k := by
  induction a with
  | nil =>
    cases h : lookupLastHN b k <;> simp [lookupLastHN, h]
  | cons e rest ih =>
    rw [List.cons_append, lookupLastHN, ih]
    cases h : lookupLastHN b k with
    | none => rfl
    | some v =>
      cases h' : lookupLastHN rest k <;> rfl

theorem lookupLastHN_eq_none (l : List (Nat × LinkedNode)) (k : Nat)
    (h : ∀ e ∈ l, e.1 ≠ k) : lookupLastHN l k = none := by
  induction l with
  | nil => rfl
  | cons e rest ih =>
    rw [lookupLastHN, ih (fun e' he' => h e' (by simp [he']))]
    simp [h e (by simp)]

mutual

theorem mem_linkNode_ids (p : Option LinkedNode) (t : HeapTree)
    (e : Nat × LinkedNode) (he : e ∈ linkNode p t) : e.1 ∈ treeIds t := by
  match t with
  | .node id s cf cs =>
    rw [linkNode] at he
    rw [treeIds]
    rcases List.mem_cons.mp he with h | h
    · simp [h]
    · simp [mem_linkChildren_ids _ cs e h]

theorem mem_linkChildren_ids (p : Option LinkedNode) (cs : List HeapTree)
    (e : Nat × LinkedNode) (he : e ∈ linkChildren p cs) :
    e.1 ∈ treeIdsL cs := by
  match cs with
  | [] => simp [linkChildren] at he
  | c :: cs' =>
    rw [linkChildren] at he
    rw [treeIdsL, List.mem_append]
    rcases List.mem_append.mp he with h | h
    · exact Or.inl (mem_linkNode_ids p c e h)
    · exact Or.inr (mem_linkChildren_ids p cs' e h)

end

mutual

theorem pathTo_isSome_iff (nid : Nat) (t : HeapTree) :
    (pathTo nid t).isSome = true ↔ nid ∈ treeIds t := by
  match t with
  | .node id s cf cs =>
    rw [pathTo, treeIds]
    by_cases hid : id = nid
    · simp [hid]
    · rw [if_neg hid]
      have hiff := pathToL_isSome_iff nid cs
      cases h : pathToL nid cs with
      | some path =>
        simp only [h, Option.isSome_some] at hiff
        simp [List.mem_cons, Ne.symm hid, hiff.mp trivial]
      | none =>
        simp only [h, Option.isSome_none] at hiff
        have : nid ∉ treeIdsL cs := fun hm => by
          have := hiff.mpr hm
          simp at this
        simp [List.mem_cons, Ne.symm hid, this]

theorem pathToL_isSome_iff (nid : Nat) (cs : List HeapTree) :
    (pathToL nid cs).isSome = true ↔ nid ∈ treeIdsL cs := by
  match cs with
  | [] => simp [pathToL, treeIdsL]
  | c :: cs' =>
    rw [pathToL, treeIdsL]
    have h1 := pathTo_isSome_iff nid c
    have h2 := pathToL_isSome_iff nid cs'
    cases h : pathTo nid c with
    | some path =>
      simp only [h, Option.isSome_some] at h1
      simp [List.mem_append, h1.mp trivial]
    | none =>
      simp only [h, Option.isSome_none] at h1
      have hnc : nid ∉ treeIds c := fun hm => by
        have := h1.mpr hm
        simp at this
      rw [List.mem_append]
      constructor
      · intro hs
        exact Or.inr (h2.mp hs)
      · intro hs
        rcases hs with hs | hs
        · exact absurd hs hnc
        · exact h2.mpr hs

end

mutual

/-- The heart of the heap inclusive-size argument: on a tree with unique
ids, looking up a node in the linked map and summing its parent chain
gives the parent's accumulated sum plus the sum of `selfSize` along the
(spec-side) ancestor chain of that node. -/
theorem lookup_linkNode (p : Option LinkedNode) (t : HeapTree)
    (hnd : (treeIds t).Nodup) (nid : Nat) :
    (lookupLastHN (linkNode p t) nid).map chainSum =
      (pathTo nid t).map
        (fun path => psum p + (path.map Prod.snd).sum) := by
  match t with
  | .node id s cf cs =>
    rw [treeIds, List.nodup_cons] at hnd
    obtain ⟨hid_not, hnd_cs⟩ := hnd
    rw [linkNode, pathTo, lookupLastHN]
    by_cases hid : id = nid
    · subst hid
      have hnone : lookupLastHN (linkChildren (some (mkLinked s cf p)) cs)
          id = none :=
        lookupLastHN_eq_none _ _
          (fun e he heq =>
            hid_not (heq ▸ mem_linkChildren_ids _ cs e he))
      simp [hnone, chainSum_mkLinked, Int.add_comm]
    · have ih := lookup_linkChildren (some (mkLinked s cf p)) cs hnd_cs nid
      simp only [psum_some, chainSum_mkLinked] at ih
      cases hL : lookupLastHN (linkChildren (some (mkLinked s cf p)) cs)
          nid with
      | some v =>
        rw [hL] at ih
        cases hP : pathToL nid cs with
        | some path =>
          rw [hP] at ih
          simp only [Option.map_some', Option.some.injEq] at ih
          simp only [hL, hP, if_neg hid, Option.map_some', List.map_cons,
            List.sum_cons, Option.some.injEq]
          rw [ih]
          ring
        | none =>
          rw [hP] at ih
          simp at ih
      | none =>
        rw [hL] at ih
        cases hP : pathToL nid cs with
        | some path =>
          rw [hP] at ih
          simp at ih
        | none =>
          simp [hL, hP, if_neg hid]

theorem lookup_linkChildren (p : Option LinkedNode) (cs : List HeapTree)
    (hnd : (treeIdsL cs).Nodup) (nid : Nat) :
    (lookupLastHN (linkChildren p cs) nid).map chainSum =
      (pathToL nid cs).map
        (fun path => psum p + (path.map Prod.snd).sum) := by
  match cs with
  | [] => rfl
  | c :: cs' =>
    rw [treeIdsL, List.nodup_append] at hnd
    obtain ⟨hnd_c, hnd_cs', hdisj⟩ := hnd
    rw [linkChildren, pathToL, lookupLastHN_append]
    have ihc := lookup_linkNode p c hnd_c nid
    have ihcs := lookup_linkChildren p cs' hnd_cs' nid
    cases hP : pathTo nid c with
    | some path =>
      have hmem : nid ∈ treeIds c :=
        (pathTo_isSome_iff nid c).mp (by rw [hP]; rfl)
      have hnot : nid ∉ treeIdsL cs' := fun hm => hdisj hmem hm
      have hnone : lookupLastHN (linkChildren p cs') nid = none :=
        lookupLastHN_eq_none _ _
          (fun e he heq =>
            hnot (heq ▸ mem_linkChildren_ids p cs' e he))
      rw [hP] at ihc
      simp only [hnone, hP]
      exact ihc
    | none =>
      rw [hP] at ihc
      cases hL : lookupLastHN (linkChildren p cs') nid with
      | some v =>
        rw [hL] at ihcs
        simp only [hL]
        exact ihcs
      | none =>
        rw [hL] at ihcs
        have hLc : lookupLastHN (linkNode p c) nid = none := by
          cases hLc : lookupLastHN (linkNode p c) nid with
          | none => rfl
          | some w =>
            rw [hLc] at ihc
            simp at ihc
        simp only [hL, hLc]
        exact ihcs

end

mutual

theorem treeIds_bump (aid : Nat) (d : Int) (t : HeapTree) :
    treeIds (bumpSelfSize aid d t) = treeIds t := by
  match t with
  | .node id s cf cs =>
    rw [bumpSelfSize, treeIds, treeIds, treeIdsL_bump]

theorem treeIdsL_bump (aid : Nat) (d : Int) (cs : List HeapTree) :
    treeIdsL (bumpSelfSizeL aid d cs) = treeIdsL cs := by
  match cs with
  | [] => rfl
  | c :: cs' =>
    rw [bumpSelfSizeL, treeIdsL, treeIdsL, treeIds_bump, treeIdsL_bump]

end

mutual

theorem pathTo_bump (aid : Nat) (d : Int) (nid : Nat) (t : HeapTree) :
    pathTo nid (bumpSelfSize aid d t) =
      (pathTo nid t).map (bumpPath aid d) := by
  match t with
  | .node id s cf cs =>
    rw [bumpSelfSize, pathTo, pathTo]
    by_cases hid : id = nid
    · simp [hid, bumpPath]
    · rw [if_neg hid, if_neg hid, pathToL_bump]
      cases hP : pathToL nid cs with
      | some path => simp [bumpPath]
      | none => simp

theorem pathToL_bump (aid : Nat) (d : Int) (nid : Nat)
    (cs : List HeapTree) :
    pathToL nid (bumpSelfSizeL aid d cs) =
      (pathToL nid cs).map (bumpPath aid d) := by
  match cs with
  | [] => rfl
  | c :: cs' =>
    rw [bumpSelfSizeL, pathToL, pathToL, pathTo_bump]
    cases hP : pathTo nid c with
    | some path => simp
    | none => simp [pathToL_bump aid d nid cs']

end

mutual

theorem pathTo_fst_mem (nid : Nat) (t : HeapTree)
    (path : List (Nat × Int)) (h : pathTo nid t = some path) :
    ∀ e ∈ path, e.1 ∈ treeIds t := by
  match t with
  | .node id s cf cs =>
    rw [pathTo] at h
    rw [treeIds]
    by_cases hid : id = nid
    · rw [if_pos hid] at h
      cases h
      intro e he
      simp at he
      simp [he]
    · rw [if_neg hid] at h
      cases hP : pathToL nid cs with
      | some path' =>
        rw [hP] at h
        cases h
        intro e he
        rcases List.mem_cons.mp he with he' | he'
        · simp [he']
        · simp [pathToL_fst_mem nid cs path' hP e he']
      | none =>
        rw [hP] at h
        cases h

theorem pathToL_fst_mem (nid : Nat) (cs : List HeapTree)
    (path : List (Nat × Int)) (h : pathToL nid cs = some path) :
    ∀ e ∈ path, e.1 ∈ treeIdsL cs := by
  match cs with
  | [] => cases h
  | c :: cs' =>
    rw [pathToL] at h
    rw [treeIdsL]
    cases hP : pathTo nid c with
    | some path' =>
      rw [hP, Option.some.injEq] at h
      subst h
      intro e he
      exact List.mem_append.mpr (Or.inl (pathTo_fst_mem nid c _ hP e he))
    | none =>
      rw [hP] at h
      intro e he
      exact List.mem_append.mpr
        (Or.inr (pathToL_fst_mem nid cs' path h e he))

end

mutual

theorem pathTo_fst_nodup (nid : Nat) (t : HeapTree)
    (hnd : (treeIds t).Nodup) (path : List (Nat × Int))
    (h : pathTo nid t = some path) : (path.map Prod.fst).Nodup := by
  match t with
  | .node id s cf cs =>
    rw [treeIds, List.nodup_cons] at hnd
    obtain ⟨hid_not, hnd_cs⟩ := hnd
    rw [pathTo] at h
    by_cases hid : id = nid
    · rw [if_pos hid] at h
      cases h
      simp
    · rw [if_neg hid] at h
      cases hP : pathToL nid cs with
      | some path' =>
        rw [hP, Option.some.injEq] at h
        subst h
        rw [List.map_cons, List.nodup_cons]
        constructor
        · intro hm
          obtain ⟨e, he, heq⟩ := List.mem_map.mp hm
          apply hid_not
          have h2 := pathToL_fst_mem nid cs _ hP e he
          rw [heq] at h2
          exact h2
        · exact pathToL_fst_nodup nid cs hnd_cs _ hP
      | none =>
        rw [hP] at h
        cases h

theorem pathToL_fst_nodup (nid : Nat) (cs : List HeapTree)
    (hnd : (treeIdsL cs).Nodup) (path : List (Nat × Int))
    (h : pathToL nid cs = some path) : (path.map Prod.fst).Nodup := by
  match cs with
  | [] => cases h
  | c :: cs' =>
    rw [treeIdsL, List.nodup_append] at hnd
    obtain ⟨hnd_c, hnd_cs', _⟩ := hnd
    rw [pathToL] at h
    cases hP : pathTo nid c with
    | some path' =>
      rw [hP, Option.some.injEq] at h
      subst h
      exact pathTo_fst_nodup nid c hnd_c _ hP
    | none =>
      rw [hP] at h
      exact pathToL_fst_nodup nid cs' hnd_cs' path h

end

theorem bumpPath_snd_of_not_mem (aid : Nat) (d : Int)
    (path : List (Nat × Int)) (h : aid ∉ path.map Prod.fst) :
    (bumpPath aid d path).map Prod.snd = path.map Prod.snd := by
  induction path with
  | nil => rfl
  | cons e rest ih =>
    have h1 : e.1 ≠ aid := fun he => h (by simp [he])
    have h2 : aid ∉ rest.map Prod.fst := fun hm => h (by simp [hm])
    simp only [bumpPath, List.map_cons] at ih ⊢
    rw [if_neg h1]
    exact congrArg _ (ih h2)

theorem bumpPath_snd_sum (aid : Nat) (d : Int) (path : List (Nat × Int))
    (hnd : (path.map Prod.fst).Nodup) (hm : aid ∈ path.map Prod.fst) :
    ((bumpPath aid d path).map Prod.snd).sum =
      (path.map Prod.snd).sum + d := by
  induction path with
  | nil => simp at hm
  | cons e rest ih =>
    rw [List.map_cons, List.nodup_cons] at hnd
    obtain ⟨hfst_not, hnd_rest⟩ := hnd
    by_cases he : e.1 = aid
    · have hrest : aid ∉ rest.map Prod.fst := he ▸ hfst_not
      simp only [bumpPath, List.map_cons, List.sum_cons, if_pos he]
      rw [show (rest.map fun e =>
          ((e.1 : Nat), if e.1 = aid then e.2 + d else e.2)) =
          bumpPath aid d rest from rfl,
        bumpPath_snd_of_not_mem aid d rest hrest]
      ring
    · have hmem : aid ∈ rest.map Prod.fst := by
        rcases List.mem_cons.mp hm with h' | h'
        · exact absurd h'.symm he
        · exact h'
      simp only [bumpPath, List.map_cons, List.sum_cons, if_neg he]
      rw [show (rest.map fun e =>
          ((e.1 : Nat), if e.1 = aid then e.2 + d else e.2)) =
          bumpPath aid d rest from rfl,
        ih hnd_rest hmem]
      ring

/-- The `_addLocation` walk on a linked heap node: collect the location
string of the node and every parent. -/
def heapChain : LinkedNode → List String
  | .root _ cf => [_locationFromCallFrame cf]
  | .child _ cf p => _locationFromCallFrame cf :: heapChain p

/-- The `_addLocation` walk starting from a heap node id. -/
def heapWalk (nodeMap : List (Nat × LinkedNode)) (nodeId : Nat) :
    List String :=
  match lookupLastHN nodeMap nodeId with
  | none => []
  | some n => heapChain n

/-- One heap event: the object literal of
`_marshalHeapSamplingProfileToEvents` followed by `_addLocation`.
`endTime` stands for the `Date.now()` reading taken in the loop body. -/
def mkHeapEvent (harvestSeq heapSampleStartTime endTime : Int)
    (samplesLen : Nat) (i : Nat) (size : Int) (nodeId : Nat)
    (nodeMap : List (Nat × LinkedNode)) : List (String × AttrVal) :=
  writeLocations
    [("harvest_seq", .num harvestSeq),
     ("sample_seq", .num i),
     ("sample_period_inuse_space_bytes", .num size),
     ("duration_ns", .num ((endTime - heapSampleStartTime) * 1000)),
     ("time_ns", .num (heapSampleStartTime * 1000)),
     ("inuse_space_bytes", .num size),
     ("samples_count", .num samplesLen)]
    (heapWalk nodeMap nodeId)

/-- The sample loop of `_marshalHeapSamplingProfileToEvents`; the
inclusive size is recomputed per sample. -/
def heapEventsAux (hs hst now : Int) (samplesLen : Nat)
    (nodeMap : List (Nat × LinkedNode)) :
    List Nat → Nat → List (List (String × AttrVal))
  | [], _ => []
  | nid :: rest, i =>
    mkHeapEvent hs hst now samplesLen i
        (_calculateInclusiveSize nid nodeMap) nid nodeMap ::
      heapEventsAux hs hst now samplesLen nodeMap rest (i + 1)

/-- `_marshalHeapSamplingProfileToEvents(harvestSeq,
heapSampleStartTime, profile)`; `samples` is the list of the samples'
`nodeId` fields, `now` the wall-clock reading. -/
def _marshalHeapSamplingProfileToEvents (hs hst now : Int)
    (head : HeapTree) (samples : List Nat) :
    List (List (String × AttrVal)) :=
  heapEventsAux hs hst now samples.length (_buildHeapNodeMap head)
    samples 0

theorem heapBase_keys_underscore (hs hst now : Int) (samplesLen i : Nat)
    (size : Int) :
    ∀ e ∈ [("harvest_seq", AttrVal.num hs),
      ("sample_seq", AttrVal.num i),
      ("sample_period_inuse_space_bytes", AttrVal.num size),
      ("duration_ns", AttrVal.num ((now - hst) * 1000)),
      ("time_ns", AttrVal.num (hst * 1000)),
      ("inuse_space_bytes", AttrVal.num size),
      ("samples_count", AttrVal.num samplesLen)],
      '_' ∈ e.1.data := by
  intro e he
  fin_cases he
  · exact (by decide : '_' ∈ "harvest_seq".data)
  · exact (by decide : '_' ∈ "sample_seq".data)
  · exact (by decide : '_' ∈ "sample_period_inuse_space_bytes".data)
  · exact (by decide : '_' ∈ "duration_ns".data)
  · exact (by decide : '_' ∈ "time_ns".data)
  · exact (by decide : '_' ∈ "inuse_space_bytes".data)
  · exact (by decide : '_' ∈ "samples_count".data)

theorem heapEventsAux_get? (hs hst now : Int) (samplesLen : Nat)
    (nodeMap : List (Nat × LinkedNode)) :
    ∀ (ss : List Nat) (i₀ k : Nat),
      (heapEventsAux hs hst now samplesLen nodeMap ss i₀).get? k =
        (ss.get? k).map
          (fun nid => mkHeapEvent hs hst now samplesLen (i₀ + k)
            (_calculateInclusiveSize nid nodeMap) nid nodeMap) := by
  intro ss
  induction ss with
  | nil => intro i₀ k; rfl
  | cons nid rest ih =>
    intro i₀ k
    rw [heapEventsAux]
    match k with
    | 0 => rfl
    | k + 1 =>
      simp only [List.get?_cons_succ]
      have key := ih (i₀ + 1) k
      rw [(show i₀ + 1 + k = i₀ + (k + 1) by omega)] at key
      exact key

/-- The inclusive size computed for a node id equals the sum of
`selfSize` over the node's ancestor chain (root included). -/
theorem inclusive_size_eq_path_sum (head : HeapTree)
    (hnd : (treeIds head).Nodup) (nid : Nat) (path : List (Nat × Int))
    (hpath : pathTo nid head = some path) :
    _calculateInclusiveSize nid (_buildHeapNodeMap head) =
      (path.map Prod.snd).sum := by
  have hlk := lookup_linkNode none head hnd nid
  rw [hpath] at hlk
  cases hL : lookupLastHN (linkNode none head) nid with
  | none =>
    rw [hL] at hlk
    simp at hlk
  | some n =>
    rw [hL] at hlk
    simp only [Option.map_some', Option.some.injEq, psum] at hlk
    rw [_calculateInclusiveSize, _buildHeapNodeMap, hL]
    show chainSum n = (path.map Prod.snd).sum
    rw [hlk]
    ring

/-- **C2.** For every linked heap snapshot (unique node ids) and every
sample, the inclusive size attached to the sample's record equals the sum
of `selfSize` over exactly the nodes of the ancestor chain from the
sample's node up to and including the root; and increasing any ancestor's
`selfSize` by a delta changes the computed sample size by exactly that
delta. -/
theorem claim_c2_heap_inclusive_size (hs hst now : Int) (head : HeapTree)
    (samples : List Nat) (hnd : (treeIds head).Nodup) (i nid : Nat)
    (hin : samples.get? i = some nid) (path : List (Nat × Int))
    (hpath : pathTo nid head = some path) :
    _calculateInclusiveSize nid (_buildHeapNodeMap head) =
      (path.map Prod.snd).sum ∧
    (∃ ev, (_marshalHeapSamplingProfileToEvents hs hst now head
        samples).get? i = some ev ∧
      getA ev "inuse_space_bytes" =
        some (.num ((path.map Prod.snd).sum)) ∧
      getA ev "sample_period_inuse_space_bytes" =
        some (.num ((path.map Prod.snd).sum))) ∧
    (∀ aid d, aid ∈ path.map Prod.fst →
      _calculateInclusiveSize nid
          (_buildHeapNodeMap (bumpSelfSize aid d head)) =
        (path.map Prod.snd).sum + d) := by
  have h1 := inclusive_size_eq_path_sum head hnd nid path hpath
  refine ⟨h1, ?_, ?_⟩
  · have hget := heapEventsAux_get? hs hst now samples.length
      (_buildHeapNodeMap head) samples 0 i
    rw [_marshalHeapSamplingProfileToEvents, hget, hin]
    refine ⟨_, rfl, ?_, ?_⟩
    · unfold mkHeapEvent
      rw [getA_writeLocations_of_underscore _ _ _ (by decide), h1]
      rfl
    · unfold mkHeapEvent
      rw [getA_writeLocations_of_underscore _ _ _ (by decide), h1]
      rfl
  · intro aid d hmem
    have hnd' : (treeIds (bumpSelfSize aid d head)).Nodup := by
      rw [treeIds_bump]
      exact hnd
    have hpath' : pathTo nid (bumpSelfSize aid d head) =
        some (bumpPath aid d path) := by
      rw [pathTo_bump, hpath]
      rfl
    have h2 := inclusive_size_eq_path_sum (bumpSelfSize aid d head) hnd'
      nid (bumpPath aid d path) hpath'
    rw [h2, bumpPath_snd_sum aid d path
      (pathTo_fst_nodup nid head hnd path hpath) hmem]

/-- Witness for C2: a two-node heap tree (`root` of selfSize 5 with one
child of selfSize 3) and one sample on the leaf; the inclusive size is
8. -/
theorem claim_c2_heap_inclusive_size_witness :
    (_calculateInclusiveSize 2 (_buildHeapNodeMap
        (.node 1 5 ⟨"root", 0⟩ [.node 2 3 ⟨"foo", 10⟩ []])) =
      ([((1 : Nat), (5 : Int)), (2, 3)].map Prod.snd).sum ∧
    (∃ ev, (_marshalHeapSamplingProfileToEvents 0 0 0
        (.node 1 5 ⟨"root", 0⟩ [.node 2 3 ⟨"foo", 10⟩ []])
        [2]).get? 0 = some ev ∧
      getA ev "inuse_space_bytes" =
        some (.num (([((1 : Nat), (5 : Int)), (2, 3)].map Prod.snd).sum)) ∧
      getA ev "sample_period_inuse_space_bytes" =
        some (.num (([((1 : Nat), (5 : Int)), (2, 3)].map Prod.snd).sum))) ∧
    (∀ aid d, aid ∈ [((1 : Nat), (5 : Int)), (2, 3)].map Prod.fst →
      _calculateInclusiveSize 2
          (_buildHeapNodeMap (bumpSelfSize aid d
            (.node 1 5 ⟨"root", 0⟩ [.node 2 3 ⟨"foo", 10⟩ []]))) =
        (([((1 : Nat), (5 : Int)), (2, 3)].map Prod.snd).sum) + d)) ∧
    ([((1 : Nat), (5 : Int)), (2, 3)].map Prod.snd).sum = 8 :=
  ⟨claim_c2_heap_inclusive_size 0 0 0
      (.node 1 5 ⟨"root", 0⟩ [.node 2 3 ⟨"foo", 10⟩ []]) [2]
      (by decide) 0 2 (by decide) [(1, 5), (2, 3)] (by decide),
   by decide⟩

/-! ## The pprof-based profiler variant: `_recordSamples`

The pprof profile carries `sampleType` (one `(type, unit)` string-table
pair per value column), samples with a value column list and a
`locationId` list (leaf first), a location table, a function table and a
string table.  `_recordSamples` reuses one mutable `attrs` object across
all samples, tracking the dynamic metric keys written for the current
sample in `u` with an alternating parity `v`, and clearing stale keys
with `_cleanupKeys`; stale `location.N` keys beyond the current sample's
depth are deleted explicitly.

Modelling notes: `_getString` models the JS out-of-range string-table
read (`undefined` interpolated into a template literal) with the literal
string `"undefined"`.  A sample whose `value` list is longer than
`sampleType` makes the JS code throw (reading `.type` of `undefined`)
and abandons the harvest; the model totalizes that read with a default
`ValueType`, which only extends the emitted record stream — the
per-record properties proved below are unaffected. -/

/-- A `(type, unit)` pair of string-table indices. -/
structure ValueType where
  type : Nat
  unit : Nat
deriving DecidableEq, Repr

/-- One pprof sample: value columns and the leaf-first location ids. -/
structure PprofSample where
  value : List Int
  locationId : List Nat
deriving DecidableEq, Repr

/-- One line of a pprof location. -/
structure PprofLine where
  functionId : Nat
  line : Int
deriving DecidableEq, Repr

/-- A pprof location table entry. -/
structure PprofLocation where
  id : Nat
  line : List PprofLine
deriving DecidableEq, Repr

/-- A pprof function table entry (`function` is a reserved word in Lean,
hence the field list name `functions` on the profile). -/
structure PprofFunction where
  id : Nat
  name : Nat
deriving DecidableEq, Repr

/-- The pprof profile as consumed by `_recordSamples`. -/
structure PprofProfile where
  sampleType : List ValueType
  sample : List PprofSample
  location : List PprofLocation
  functions : List PprofFunction
  stringTable : List String
  timeNanos : Int
  durationNanos : Int
  periodType : ValueType
  period : Int
deriving DecidableEq, Repr

/-- The `melt` ingest destination (`DESTINATION_TYPE_INGEST_MELT`). -/
def DESTINATION_TYPE_INGEST_MELT : Nat := 0x03

/-- `_getString(profile, index)`. -/
def _getString (p : PprofProfile) (index : Nat) : String :=
  p.stringTable.getD index "undefined"

/-- `_getLocation(profile, locationId)`: first location with a matching
id, else none. -/
def _getLocation (p : PprofProfile) (locationId : Nat) :
    Option PprofLocation :=
  p.location.find? (fun loc => loc.id = locationId)

/-- `_locationFromLine(profile, l)`. -/
def _locationFromLine (p : PprofProfile) (l : PprofLine) : String :=
  (match p.functions.find? (fun fn => fn.id = l.functionId) with
   | some fn => _getString p fn.name
   | none => "(unknown)") ++ ":" ++ intRepr l.line

/-- The dynamic metric key for value column `j` of a sample. -/
def sampleKey (p : PprofProfile) (j : Nat) : String :=
  _normalizeAttrNameFromSampleValueType
    (_getString p (p.sampleType.getD j ⟨0, 0⟩).type)
    (_getString p (p.sampleType.getD j ⟨0, 0⟩).unit)

/-- The `sample_period_...` key derived from the profile's period
type. -/
def periodKey (p : PprofProfile) : String :=
  "sample_period_" ++ _normalizeAttrNameFromSampleValueType
    (_getString p p.periodType.type) (_getString p p.periodType.unit)

/-- The initial `attrs` object literal of `_recordSamples` (a computed
key colliding with an earlier literal key would overwrite it, as in a JS
object literal). -/
def initAttrs (hs : Int) (p : PprofProfile) : List (String × AttrVal) :=
  setA (setA (setA (setA [] "harvest_seq" (.num hs))
    "time_ns" (.num p.timeNanos))
    "duration_ns" (.num p.durationNanos))
    (periodKey p) (.num p.period)

/-- The dynamic metric keys written for a sample. -/
def dynKeys (p : PprofProfile) (sample : PprofSample) : List String :=
  (List.range sample.value.length).map (sampleKey p)

/-- The inner value loop of `_recordSamples`:
`attrs[key] = sample.value[j]; u[key] = v` for each value column `j`. -/
def writeVals (p : PprofProfile) (sample : PprofSample) (v : Nat) :
    List Nat → List (String × AttrVal) × List (String × Nat) →
      List (String × AttrVal) × List (String × Nat)
  | [], st => st
  | j :: rest, (attrs, u) =>
    writeVals p sample v rest
      (setA attrs (sampleKey p j) (.num (sample.value.getD j 0)),
       setA u (sampleKey p j) v)

/-- `_cleanupKeys(attrs, keys, val)`: delete from both maps every tracked
key whose recorded parity differs from `val`, and flip the parity. -/
def _cleanupKeys (attrs : List (String × AttrVal))
    (u : List (String × Nat)) (v : Nat) :
    List (String × AttrVal) × List (String × Nat) × Nat :=
  (attrs.filter (fun e =>
     match getA u e.1 with
     | some pv => pv = v
     | none => true),
   u.filter (fun e => e.2 = v),
   1 - v)

/-- Truthiness of `attrs[k]` (an absent property is falsy). -/
def truthyAt (attrs : List (String × AttrVal)) (k : String) : Bool :=
  match getA attrs k with
  | some v => jsTruthy v
  | none => false

/-- One step of the location loop: write `location.j` when the location
resolves and has at least one line; otherwise delete a stale truthy
`location.j` carried over on the reused record. -/
def locStep (p : PprofProfile) (attrs : List (String × AttrVal))
    (j : Nat) (lid : Nat) : List (String × AttrVal) :=
  match _getLocation p lid with
  | some loc =>
    match loc.line with
    | l :: _ => setA attrs (locKey j) (.str (_locationFromLine p l))
    | [] => if truthyAt attrs (locKey j) then delA attrs (locKey j)
            else attrs
  | none => if truthyAt attrs (locKey j) then delA attrs (locKey j)
            else attrs

/-- The location loop over a sample's `locationId` list. -/
def writeSampleLocs (p : PprofProfile) :
    List Nat → Nat → List (String × AttrVal) → List (String × AttrVal)
  | [], _, attrs => attrs
  | lid :: rest, j, attrs =>
    writeSampleLocs p rest (j + 1) (locStep p attrs j lid)

/-- The stale-location loop: `for (j = len; j < prevLoc; j++) delete
attrs[`location.${'$'}{j}`]`. -/
def clearStaleLocs (attrs : List (String × AttrVal))
    (len prevLoc : Nat) : List (String × AttrVal) :=
  (List.range' len (prevLoc - len)).foldl
    (fun a j => delA a (locKey j)) attrs

/-- The mutable state threaded through the sample loop of
`_recordSamples`, plus the list of records emitted so far. -/
structure RecState where
  attrs : List (String × AttrVal)
  u : List (String × Nat)
  v : Nat
  prevLoc : Nat
  out : List (List (String × AttrVal))

/-- The `sample_seq` write followed by the dynamic value loop of one
iteration: the record and tracking map after
`attrs['sample_seq'] = i` and the `for j` value loop. -/
def stepVU (p : PprofProfile) (st : RecState) (i : Nat)
    (sample : PprofSample) :
    List (String × AttrVal) × List (String × Nat) :=
  writeVals p sample st.v (List.range sample.value.length)
    (setA st.attrs "sample_seq" (.num i), st.u)

/-- The `_cleanupKeys` call of one iteration. -/
def stepCU (p : PprofProfile) (st : RecState) (i : Nat)
    (sample : PprofSample) :
    List (String × AttrVal) × List (String × Nat) × Nat :=
  _cleanupKeys (stepVU p st i sample).1 (stepVU p st i sample).2 st.v

/-- The record at the end of one iteration (the moment it is emitted):
after the location loop and the stale-location clearing. -/
def stepAttrs (p : PprofProfile) (st : RecState) (i : Nat)
    (sample : PprofSample) : List (String × AttrVal) :=
  clearStaleLocs
    (writeSampleLocs p sample.locationId 0 (stepCU p st i sample).1)
    sample.locationId.length st.prevLoc

/-- One iteration of the sample loop of `_recordSamples`. -/
def recordStep (dest : Nat) (p : PprofProfile) (st : RecState) (i : Nat)
    (sample : PprofSample) : RecState :=
  { attrs := stepAttrs p st i sample,
    u := (stepCU p st i sample).2.1,
    v := (stepCU p st i sample).2.2,
    prevLoc := sample.locationId.length,
    out := if dest = DESTINATION_TYPE_INGEST_MELT
           then st.out ++ [stepAttrs p st i sample]
           else st.out }

/-- The sample loop of `_recordSamples`. -/
def recordLoop (dest : Nat) (p : PprofProfile) :
    List PprofSample → Nat → RecState → RecState
  | [], _, st => st
  | s :: rest, i, st =>
    recordLoop dest p rest (i + 1) (recordStep dest p st i s)

/-- `_recordSamples(api, eventType, harvestSeq, profile, destination)`,
returning the list of records passed to `recordCustomEvent` (one per
sample when the destination is the melt ingest, none otherwise). -/
def _recordSamples (hs : Int) (p : PprofProfile) (dest : Nat) :
    List (List (String × AttrVal)) :=
  (recordLoop dest p p.sample 0
    { attrs := initAttrs hs p, u := [], v := 0, prevLoc := 0,
      out := [] }).out

theorem setA_mem {α : Type} (l : List (String × α)) (k : String) (v : α)
    (e : String × α) (he : e ∈ setA l k v) : e = (k, v) ∨ e ∈ l := by
  induction l with
  | nil => simpa [setA] using he
  | cons e' rest ih =>
    by_cases h : e'.1 = k
    · rw [setA, if_pos h] at he
      rcases List.mem_cons.mp he with h' | h'
      · exact Or.inl h'
      · exact Or.inr (by simp [h'])
    · rw [setA, if_neg h] at he
      rcases List.mem_cons.mp he with h' | h'
      · exact Or.inr (by simp [h'])
      · rcases ih h' with h'' | h''
        · exact Or.inl h''
        · exact Or.inr (by simp [h''])

theorem setA_keys_nodup {α : Type} (l : List (String × α)) (k : String)
    (v : α) (hnd : (l.map Prod.fst).Nodup) :
    ((setA l k v).map Prod.fst).Nodup := by
  induction l with
  | nil => simp [setA]
  | cons e rest ih =>
    rw [List.map_cons, List.nodup_cons] at hnd
    obtain ⟨hnot, hnd'⟩ := hnd
    by_cases h : e.1 = k
    · rw [setA, if_pos h, List.map_cons, List.nodup_cons]
      exact ⟨h ▸ hnot, hnd'⟩
    · rw [setA, if_neg h, List.map_cons, List.nodup_cons]
      refine ⟨?_, ih hnd'⟩
      intro hm
      obtain ⟨e', he', heq⟩ := List.mem_map.mp hm
      rcases setA_mem rest k v e' he' with h' | h'
      · exact h (by rw [← heq, h'])
      · exact hnot (List.mem_map.mpr ⟨e', h', heq⟩)

theorem getA_isSome_mem {α : Type} (l : List (String × α)) (k : String)
    (h : (getA l k).isSome) : ∃ v, (k, v) ∈ l := by
  induction l with
  | nil => simp [getA] at h
  | cons e rest ih =>
    by_cases he : e.1 = k
    · exact ⟨e.2, by simp [← he]⟩
    · rw [getA, if_neg he] at h
      obtain ⟨v, hv⟩ := ih h
      exact ⟨v, by simp [hv]⟩

theorem getA_eq_none_of_forall_ne {α : Type} (l : List (String × α))
    (k : String) (h : ∀ e ∈ l, e.1 ≠ k) : getA l k = none := by
  induction l with
  | nil => rfl
  | cons e rest ih =>
    rw [getA, if_neg (h e (by simp))]
    exact ih (fun e' he' => h e' (by simp [he']))

theorem getA_filter_key {α : Type} (l : List (String × α))
    (f : String → Bool) (k : String) :
    getA (l.filter (fun e => f e.1)) k =
      if f k then getA l k else none := by
  induction l with
  | nil => simp [getA]
  | cons e rest ih =>
    by_cases he : e.1 = k
    · subst he
      by_cases hf : f e.1
      · simp [List.filter_cons, hf, getA, ih]
      · simp [List.filter_cons, hf, getA, ih]
    · by_cases hf : f e.1
      · simp [List.filter_cons, hf, getA, he, ih]
      · simp [List.filter_cons, hf, getA, he, ih]

theorem getA_filter_val_nodup (u : List (String × Nat))
    (hnd : (u.map Prod.fst).Nodup) (v : Nat) (k : String) :
    getA (u.filter (fun e => e.2 = v)) k =
      match getA u k with
      | some pv => if pv = v then some pv else none
      | none => none := by
  induction u with
  | nil => simp [getA]
  | cons e rest ih =>
    rw [List.map_cons, List.nodup_cons] at hnd
    obtain ⟨hnot, hnd'⟩ := hnd
    by_cases he : e.1 = k
    · subst he
      have hrest : getA rest e.1 = none :=
        getA_eq_none_of_forall_ne rest e.1
          (fun e' he' heq =>
            hnot (List.mem_map.mpr ⟨e', he', heq⟩))
      have hrestf : getA (rest.filter (fun e => e.2 = v)) e.1 = none := by
        apply getA_eq_none_of_forall_ne
        intro e' he' heq
        exact hnot (List.mem_map.mpr ⟨e', List.mem_of_mem_filter he', heq⟩)
      by_cases hv : e.2 = v
      · simp [List.filter, hv, getA]
      · simp only [List.filter]
        rw [(by simpa using hv : decide (e.2 = v) = false), hrestf]
        simp [getA, hv]
    · by_cases hv : e.2 = v
      · simp only [List.filter]
        rw [(by simpa using hv : decide (e.2 = v) = true)]
        rw [getA, if_neg he, ih hnd']
        rw [getA, if_neg he]
      · simp only [List.filter]
        rw [(by simpa using hv : decide (e.2 = v) = false), ih hnd']
        rw [getA, if_neg he]

theorem getA_foldl_delA_of_forall_ne (is : List Nat)
    (a : List (String × AttrVal)) (k : String)
    (hk : ∀ j ∈ is, k ≠ locKey j) :
    getA (is.foldl (fun a j => delA a (locKey j)) a) k = getA a k := by
  induction is generalizing a with
  | nil => rfl
  | cons j t ih =>
    rw [List.foldl_cons, ih _ (fun j' hj' => hk j' (by simp [hj'])),
      getA_delA_ne _ _ _ (Ne.symm (hk j (by simp)))]

theorem getA_foldl_delA_mem (is : List Nat)
    (a : List (String × AttrVal)) (N : Nat) (hm : N ∈ is) :
    getA (is.foldl (fun a j => delA a (locKey j)) a) (locKey N) = none := by
  induction is generalizing a with
  | nil => simp at hm
  | cons j t ih =>
    by_cases ht : N ∈ t
    · rw [List.foldl_cons]
      exact ih _ ht
    · have hNj : N = j := by
        rcases List.mem_cons.mp hm with h | h
        · exact h
        · exact absurd h ht
      subst hNj
      rw [List.foldl_cons,
        getA_foldl_delA_of_forall_ne t _ _
          (fun j' hj' he => ht (locKey_inj N j' he ▸ hj')),
        getA_delA_self]

theorem getA_foldl_delA_changed (is : List Nat)
    (a : List (String × AttrVal)) (k : String) :
    getA (is.foldl (fun a j => delA a (locKey j)) a) k = getA a k ∨
      getA (is.foldl (fun a j => delA a (locKey j)) a) k = none := by
  induction is generalizing a with
  | nil => exact Or.inl rfl
  | cons j t ih =>
    rw [List.foldl_cons]
    by_cases he : k = locKey j
    · subst he
      by_cases ht : ∃ j' ∈ t, locKey j = locKey j'
      · obtain ⟨j', hj', heq⟩ := ht
        right
        rw [heq]
        exact getA_foldl_delA_mem t _ j' hj'
      · right
        rw [getA_foldl_delA_of_forall_ne t _ _
          (fun j' hj' he' => ht ⟨j', hj', he'⟩)]
        exact getA_delA_self _ _
    · rcases ih (delA a (locKey j)) with h | h
      · rw [h, getA_delA_ne _ _ _ (Ne.symm he)]
        exact Or.inl rfl
      · exact Or.inr h

theorem writeVals_fst_not_mem (p : PprofProfile) (sample : PprofSample)
    (v : Nat) (k : String) :
    ∀ (js : List Nat) (attrs : List (String × AttrVal))
      (u : List (String × Nat)),
      (∀ j ∈ js, k ≠ sampleKey p j) →
      getA (writeVals p sample v js (attrs, u)).1 k = getA attrs k := by
  intro js
  induction js with
  | nil => intro attrs u _; rfl
  | cons j t ih =>
    intro attrs u hk
    rw [writeVals, ih _ _ (fun j' hj' => hk j' (by simp [hj'])),
      getA_setA_ne _ _ _ _ (Ne.symm (hk j (by simp)))]

theorem writeVals_snd_not_mem (p : PprofProfile) (sample : PprofSample)
    (v : Nat) (k : String) :
    ∀ (js : List Nat) (attrs : List (String × AttrVal))
      (u : List (String × Nat)),
      (∀ j ∈ js, k ≠ sampleKey p j) →
      getA (writeVals p sample v js (attrs, u)).2 k = getA u k := by
  intro js
  induction js with
  | nil => intro attrs u _; rfl
  | cons j t ih =>
    intro attrs u hk
    rw [writeVals, ih _ _ (fun j' hj' => hk j' (by simp [hj'])),
      getA_setA_ne _ _ _ _ (Ne.symm (hk j (by simp)))]

theorem writeVals_snd_mem (p : PprofProfile) (sample : PprofSample)
    (v : Nat) (k : String) :
    ∀ (js : List Nat) (attrs : List (String × AttrVal))
      (u : List (String × Nat)),
      (∃ j ∈ js, k = sampleKey p j) →
      getA (writeVals p sample v js (attrs, u)).2 k = some v := by
  intro js
  induction js with
  | nil => intro attrs u h; simp at h
  | cons j t ih =>
    intro attrs u h
    by_cases ht : ∃ j' ∈ t, k = sampleKey p j'
    · rw [writeVals]
      exact ih _ _ ht
    · obtain ⟨j', hj', heq⟩ := h
      have hj : j' = j := by
        rcases List.mem_cons.mp hj' with h' | h'
        · exact h'
        · exact absurd ⟨j', h', heq⟩ ht
      subst hj
      rw [writeVals,
        writeVals_snd_not_mem p sample v k t _ _
          (fun j'' hj'' he => ht ⟨j'', hj'', he⟩),
        heq, getA_setA_self]

theorem writeVals_fst_isSome_mem (p : PprofProfile) (sample : PprofSample)
    (v : Nat) (k : String) :
    ∀ (js : List Nat) (attrs : List (String × AttrVal))
      (u : List (String × Nat)),
      (∃ j ∈ js, k = sampleKey p j) →
      (getA (writeVals p sample v js (attrs, u)).1 k).isSome := by
  intro js
  induction js with
  | nil => intro attrs u h; simp at h
  | cons j t ih =>
    intro attrs u h
    by_cases ht : ∃ j' ∈ t, k = sampleKey p j'
    · rw [writeVals]
      exact ih _ _ ht
    · obtain ⟨j', hj', heq⟩ := h
      have hj : j' = j := by
        rcases List.mem_cons.mp hj' with h' | h'
        · exact h'
        · exact absurd ⟨j', h', heq⟩ ht
      subst hj
      rw [writeVals,
        writeVals_fst_not_mem p sample v k t _ _
          (fun j'' hj'' he => ht ⟨j'', hj'', he⟩),
        heq, getA_setA_self]
      rfl

theorem writeVals_snd_mem_cases (p : PprofProfile) (sample : PprofSample)
    (v : Nat) :
    ∀ (js : List Nat) (attrs : List (String × AttrVal))
      (u : List (String × Nat)) (e : String × Nat),
      e ∈ (writeVals p sample v js (attrs, u)).2 →
      e.2 = v ∨ e ∈ u := by
  intro js
  induction js with
  | nil => intro attrs u e he; exact Or.inr he
  | cons j t ih =>
    intro attrs u e he
    rw [writeVals] at he
    rcases ih _ _ e he with h | h
    · exact Or.inl h
    · rcases setA_mem u (sampleKey p j) v e h with h' | h'
      · exact Or.inl (by rw [h'])
      · exact Or.inr h'

theorem writeVals_snd_keys (p : PprofProfile) (sample : PprofSample)
    (v : Nat) :
    ∀ (js : List Nat) (attrs : List (String × AttrVal))
      (u : List (String × Nat)) (e : String × Nat),
      e ∈ (writeVals p sample v js (attrs, u)).2 →
      e ∈ u ∨ ∃ j ∈ js, e.1 = sampleKey p j := by
  intro js
  induction js with
  | nil => intro attrs u e he; exact Or.inl he
  | cons j t ih =>
    intro attrs u e he
    rw [writeVals] at he
    rcases ih _ _ e he with h | h
    · rcases setA_mem u (sampleKey p j) v e h with h' | h'
      · exact Or.inr ⟨j, by simp, by rw [h']⟩
      · exact Or.inl h'
    · obtain ⟨j', hj', heq⟩ := h
      exact Or.inr ⟨j', by simp [hj'], heq⟩

theorem writeVals_snd_nodup (p : PprofProfile) (sample : PprofSample)
    (v : Nat) :
    ∀ (js : List Nat) (attrs : List (String × AttrVal))
      (u : List (String × Nat)),
      (u.map Prod.fst).Nodup →
      (((writeVals p sample v js (attrs, u)).2).map Prod.fst).Nodup := by
  intro js
  induction js with
  | nil => intro attrs u h; exact h
  | cons j t ih =>
    intro attrs u h
    rw [writeVals]
    exact ih _ _ (setA_keys_nodup u (sampleKey p j) v h)

theorem locStep_getA_ne (p : PprofProfile)
    (attrs : List (String × AttrVal)) (j lid : Nat) (k : String)
    (hk : k ≠ locKey j) :
    getA (locStep p attrs j lid) k = getA attrs k := by
  rw [locStep]
  split
  · split
    · exact getA_setA_ne _ _ _ _ (Ne.symm hk)
    · split
      · exact getA_delA_ne _ _ _ (Ne.symm hk)
      · rfl
  · split
    · exact getA_delA_ne _ _ _ (Ne.symm hk)
    · rfl

theorem writeSampleLocs_getA_of_forall_ne (p : PprofProfile) :
    ∀ (lids : List Nat) (j₀ : Nat) (attrs : List (String × AttrVal))
      (k : String),
      (∀ j, j₀ ≤ j → j < j₀ + lids.length → k ≠ locKey j) →
      getA (writeSampleLocs p lids j₀ attrs) k = getA attrs k := by
  intro lids
  induction lids with
  | nil => intro j₀ attrs k _; rfl
  | cons lid rest ih =>
    intro j₀ attrs k hk
    rw [writeSampleLocs,
      ih (j₀ + 1) _ _ (fun j h1 h2 => hk j (by omega) (by simp; omega)),
      locStep_getA_ne _ _ _ _ _ (hk j₀ le_rfl (by simp))]

theorem writeSampleLocs_getA_underscore (p : PprofProfile)
    (lids : List Nat) (j₀ : Nat) (attrs : List (String × AttrVal))
    (k : String) (hk : '_' ∈ k.data) :
    getA (writeSampleLocs p lids j₀ attrs) k = getA attrs k :=
  writeSampleLocs_getA_of_forall_ne p lids j₀ attrs k
    (fun j _ _ => ne_locKey_of_underscore k hk j)

theorem writeSampleLocs_changed (p : PprofProfile) :
    ∀ (lids : List Nat) (j₀ : Nat) (attrs : List (String × AttrVal))
      (k : String),
      getA (writeSampleLocs p lids j₀ attrs) k = getA attrs k ∨
        ∃ j, j₀ ≤ j ∧ j < j₀ + lids.length ∧ k = locKey j := by
  intro lids
  induction lids with
  | nil => intro j₀ attrs k; exact Or.inl rfl
  | cons lid rest ih =>
    intro j₀ attrs k
    by_cases he : k = locKey j₀
    · exact Or.inr ⟨j₀, le_rfl, by simp, he⟩
    · rw [writeSampleLocs]
      rcases ih (j₀ + 1) (locStep p attrs j₀ lid) k with h | h
      · rw [h, locStep_getA_ne _ _ _ _ _ he]
        exact Or.inl rfl
      · obtain ⟨j, h1, h2, h3⟩ := h
        exact Or.inr ⟨j, by omega, by simp; omega, h3⟩

theorem getA_mem {α : Type} (l : List (String × α)) (k : String) (v : α)
    (h : getA l k = some v) : (k, v) ∈ l := by
  induction l with
  | nil => simp [getA] at h
  | cons e rest ih =>
    by_cases he : e.1 = k
    · rw [getA, if_pos he, Option.some.injEq] at h
      have hkv : (k, v) = e := Prod.ext he.symm h.symm
      rw [hkv]
      exact List.mem_cons_self e rest
    · rw [getA, if_neg he] at h
      exact List.mem_cons.mpr (Or.inr (ih h))

/-- The keys of the record that are not per-sample dynamic metric keys:
the fixed keys of the initial object literal, the per-iteration
`sample_seq`, and the period key. -/
def isFixedKey (p : PprofProfile) (k : String) : Prop :=
  k = "harvest_seq" ∨ k = "time_ns" ∨ k = "duration_ns" ∨
    k = "sample_seq" ∨ k = periodKey p

theorem isFixedKey_underscore (p : PprofProfile) (k : String)
    (h : isFixedKey p k) : '_' ∈ k.data := by
  rcases h with h | h | h | h | h
  · rw [h]; decide
  · rw [h]; decide
  · rw [h]; decide
  · rw [h]; decide
  · rw [h, periodKey, String.data_append]
    exact List.mem_append.mpr (Or.inl (by decide))

theorem initAttrs_classified (hs : Int) (p : PprofProfile) (k : String)
    (h : (getA (initAttrs hs p) k).isSome) : isFixedKey p k := by
  obtain ⟨v, hv⟩ := getA_isSome_mem _ _ h
  rw [initAttrs] at hv
  rcases setA_mem _ _ _ _ hv with h1 | h1
  · right; right; right; right
    exact congrArg Prod.fst h1
  rcases setA_mem _ _ _ _ h1 with h2 | h2
  · right; right; left
    exact congrArg Prod.fst h2
  rcases setA_mem _ _ _ _ h2 with h3 | h3
  · right; left
    exact congrArg Prod.fst h3
  rcases setA_mem _ _ _ _ h3 with h4 | h4
  · left
    exact congrArg Prod.fst h4
  · simp at h4

/-- The invariant of the `_recordSamples` loop state, holding before
each iteration: the parity is a bit, every tracked key was recorded at
the previous parity, tracked keys are unique and contain an underscore,
and every key present on the reused record is a fixed key, a location
key below the previous sample's depth, or a tracked dynamic key. -/
def RecInv (p : PprofProfile) (st : RecState) : Prop :=
  (st.v = 0 ∨ st.v = 1) ∧
  (∀ e ∈ st.u, e.2 ≠ st.v) ∧
  ((st.u.map Prod.fst).Nodup) ∧
  (∀ e ∈ st.u, '_' ∈ e.1.data) ∧
  (∀ k, (getA st.attrs k).isSome →
    isFixedKey p k ∨ (∃ j, j < st.prevLoc ∧ k = locKey j) ∨
      (getA st.u k).isSome)

theorem recInv_init (hs : Int) (p : PprofProfile) :
    RecInv p
      { attrs := initAttrs hs p, u := [], v := 0, prevLoc := 0,
        out := [] } := by
  refine ⟨Or.inl rfl, ?_, ?_, ?_, ?_⟩
  · intro e he; simp at he
  · simp
  · intro e he; simp at he
  · intro k hk
    exact Or.inl (initAttrs_classified hs p k hk)

theorem sampleKey_underscore (p : PprofProfile) (j : Nat) :
    '_' ∈ (sampleKey p j).data :=
  normalize_has_underscore _ _

theorem not_mem_dynKeys_forall (p : PprofProfile) (sample : PprofSample)
    (k : String) (h : k ∉ dynKeys p sample) :
    ∀ j ∈ List.range sample.value.length, k ≠ sampleKey p j := by
  intro j hj he
  exact h (List.mem_map.mpr ⟨j, hj, he.symm⟩)

theorem mem_dynKeys_exists (p : PprofProfile) (sample : PprofSample)
    (k : String) (h : k ∈ dynKeys p sample) :
    ∃ j ∈ List.range sample.value.length, k = sampleKey p j := by
  obtain ⟨j, hj, heq⟩ := List.mem_map.mp h
  exact ⟨j, hj, heq.symm⟩

theorem dynKeys_underscore (p : PprofProfile) (sample : PprofSample)
    (k : String) (h : k ∈ dynKeys p sample) : '_' ∈ k.data := by
  obtain ⟨j, _, heq⟩ := mem_dynKeys_exists p sample k h
  rw [heq]
  exact sampleKey_underscore p j

theorem cleanup_fst_getA (attrs : List (String × AttrVal))
    (u : List (String × Nat)) (v : Nat) (k : String) :
    getA (_cleanupKeys attrs u v).1 k =
      if (match getA u k with
          | some pv => decide (pv = v)
          | none => true) then getA attrs k else none :=
  getA_filter_key attrs
    (fun s => match getA u s with
      | some pv => decide (pv = v)
      | none => true) k

theorem cleanup_snd_getA (attrs : List (String × AttrVal))
    (u : List (String × Nat)) (hnd : (u.map Prod.fst).Nodup) (v : Nat)
    (k : String) :
    getA (_cleanupKeys attrs u v).2.1 k =
      match getA u k with
      | some pv => if pv = v then some pv else none
      | none => none :=
  getA_filter_val_nodup u hnd v k

/-- **Record width bound at emission**: at the moment the record of a
sample is emitted, no `location.N` key with `N` at or beyond that
sample's own stack depth is present — stale trailing location keys from
the previous sample have been deleted. -/
theorem stepAttrs_locKey_ge (p : PprofProfile) (st : RecState) (i : Nat)
    (sample : PprofSample) (hinv : RecInv p st) (N : Nat)
    (hN : sample.locationId.length ≤ N) :
    getA (stepAttrs p st i sample) (locKey N) = none := by
  obtain ⟨hv01, hupar, hund, huus, hclass⟩ := hinv
  rw [stepAttrs, clearStaleLocs]
  by_cases hprev : N < st.prevLoc
  · exact getA_foldl_delA_mem _ _ N
      (by rw [List.mem_range'_1]; omega)
  · rw [getA_foldl_delA_of_forall_ne _ _ _
      (fun j hj he => by
        rw [List.mem_range'_1] at hj
        have := locKey_inj N j he
        omega)]
    rw [writeSampleLocs_getA_of_forall_ne p _ _ _ _
      (fun j h1 h2 he => by
        have := locKey_inj N j he
        omega)]
    rw [stepCU, cleanup_fst_getA]
    have hnotdyn : locKey N ∉ dynKeys p sample := fun hm =>
      locKey_no_underscore N (dynKeys_underscore p sample _ hm)
    have hu2 : getA (stepVU p st i sample).2 (locKey N) =
        getA st.u (locKey N) := by
      rw [stepVU]
      exact writeVals_snd_not_mem p sample st.v _ _ _ _
        (not_mem_dynKeys_forall p sample _ hnotdyn)
    cases hsu : getA st.u (locKey N) with
    | some pv =>
      have hpv : pv ≠ st.v := hupar (locKey N, pv) (getA_mem _ _ _ hsu)
      rw [hu2, hsu]
      simp [hpv]
    | none =>
      rw [hu2, hsu]
      have hcond : (match (none : Option Nat) with
          | some pv => decide (pv = st.v)
          | none => true) = true := rfl
      rw [hcond, if_pos rfl]
      rw [stepVU, writeVals_fst_not_mem p sample st.v _ _ _ _
        (not_mem_dynKeys_forall p sample _ hnotdyn),
        getA_setA_ne _ _ _ _
          (ne_locKey_of_underscore "sample_seq" (by decide) N)]
      cases hsa : getA st.attrs (locKey N) with
      | none => rfl
      | some w =>
        exfalso
        rcases hclass (locKey N) (by rw [hsa]; rfl) with
          hf | ⟨j, hj, he⟩ | hu
        · exact locKey_no_underscore N (isFixedKey_underscore p _ hf)
        · have := locKey_inj N j he
          omega
        · rw [hsu] at hu
          simp at hu

/-- **Dynamic keys present at emission**: every dynamic metric key of the
current sample is present on the record when it is emitted. -/
theorem stepAttrs_dyn_isSome (p : PprofProfile) (st : RecState) (i : Nat)
    (sample : PprofSample) (k : String) (hk : k ∈ dynKeys p sample) :
    (getA (stepAttrs p st i sample) k).isSome := by
  have hkus : '_' ∈ k.data := dynKeys_underscore p sample k hk
  have h2 : (getA (stepVU p st i sample).1 k).isSome := by
    rw [stepVU]
    exact writeVals_fst_isSome_mem p sample st.v k _ _ _
      (mem_dynKeys_exists p sample k hk)
  have hu2 : getA (stepVU p st i sample).2 k = some st.v := by
    rw [stepVU]
    exact writeVals_snd_mem p sample st.v k _ _ _
      (mem_dynKeys_exists p sample k hk)
  have h3 : getA (stepCU p st i sample).1 k =
      getA (stepVU p st i sample).1 k := by
    rw [stepCU, cleanup_fst_getA, hu2]
    simp
  have h4 : getA (writeSampleLocs p sample.locationId 0
      (stepCU p st i sample).1) k = getA (stepCU p st i sample).1 k :=
    writeSampleLocs_getA_underscore p _ _ _ k hkus
  rw [stepAttrs, clearStaleLocs,
    getA_foldl_delA_of_forall_ne _ _ _
      (fun j _ => ne_locKey_of_underscore k hkus j),
    h4, h3]
  exact h2

/-- **No foreign dynamic key at emission**: every key present on the
record when a sample's record is emitted is a fixed key, a location key
below the sample's own depth, or one of the current sample's dynamic
metric keys. -/
theorem stepAttrs_classified (p : PprofProfile) (st : RecState) (i : Nat)
    (sample : PprofSample) (hinv : RecInv p st) (k : String)
    (hk : (getA (stepAttrs p st i sample) k).isSome) :
    isFixedKey p k ∨
      (∃ j, j < sample.locationId.length ∧ k = locKey j) ∨
      k ∈ dynKeys p sample := by
  obtain ⟨hv01, hupar, hund, huus, hclass⟩ := hinv
  by_cases hdyn : k ∈ dynKeys p sample
  · exact Or.inr (Or.inr hdyn)
  have hforall := not_mem_dynKeys_forall p sample k hdyn
  rw [stepAttrs, clearStaleLocs] at hk
  rcases getA_foldl_delA_changed _ _ k with hch | hch
  · rw [hch] at hk
    rcases writeSampleLocs_changed p sample.locationId 0
        (stepCU p st i sample).1 k with hch2 | ⟨j, h1, h2, h3⟩
    · rw [hch2] at hk
      rw [stepCU, cleanup_fst_getA] at hk
      have hu2 : getA (stepVU p st i sample).2 k = getA st.u k := by
        rw [stepVU]
        exact writeVals_snd_not_mem p sample st.v _ _ _ _ hforall
      rw [hu2] at hk
      cases hsu : getA st.u k with
      | some pv =>
        have hpv : pv ≠ st.v := hupar (k, pv) (getA_mem _ _ _ hsu)
        rw [hsu] at hk
        simp [hpv] at hk
      | none =>
        rw [hsu] at hk
        have hcond : (match (none : Option Nat) with
            | some pv => decide (pv = st.v)
            | none => true) = true := rfl
        rw [hcond, if_pos rfl] at hk
        rw [stepVU, writeVals_fst_not_mem p sample st.v _ _ _ _ hforall]
          at hk
        by_cases hss : k = "sample_seq"
        · exact Or.inl (Or.inr (Or.inr (Or.inr (Or.inl hss))))
        · rw [getA_setA_ne _ _ _ _ (fun he => hss he.symm)] at hk
          rcases hclass k hk with hf | ⟨j, hj, he⟩ | hu
          · exact Or.inl hf
          · by_cases hjlen : j < sample.locationId.length
            · exact Or.inr (Or.inl ⟨j, hjlen, he⟩)
            · exfalso
              have hnone := stepAttrs_locKey_ge p st i sample
                ⟨hv01, hupar, hund, huus, hclass⟩ j (by omega)
              rw [← he] at hnone
              -- hk was about the unfolded term; recompute isSome
              have hk5 : (getA (stepAttrs p st i sample) k).isSome := by
                rw [stepAttrs, clearStaleLocs, hch, hch2, stepCU,
                  cleanup_fst_getA, hu2, hsu, hcond, if_pos rfl, stepVU,
                  writeVals_fst_not_mem p sample st.v _ _ _ _ hforall,
                  getA_setA_ne _ _ _ _ (fun he' => hss he'.symm)]
                exact hk
              rw [hnone] at hk5
              simp at hk5
          · rw [hsu] at hu
            simp at hu
    · exact Or.inr (Or.inl ⟨j, by omega, h3⟩)
  · rw [hch] at hk
    simp at hk

theorem recordStep_inv (dest : Nat) (p : PprofProfile) (st : RecState)
    (i : Nat) (sample : PprofSample) (hinv : RecInv p st) :
    RecInv p (recordStep dest p st i sample) := by
  obtain ⟨hv01, hupar, hund, huus, hclass⟩ := hinv
  have hu2nodup : (((stepVU p st i sample).2).map Prod.fst).Nodup := by
    rw [stepVU]
    exact writeVals_snd_nodup p sample st.v _ _ _ hund
  refine ⟨?_, ?_, ?_, ?_, ?_⟩
  · show (1 - st.v = 0 ∨ 1 - st.v = 1)
    omega
  · intro e he
    show e.2 ≠ 1 - st.v
    have he2 : e ∈ ((stepVU p st i sample).2).filter
        (fun e => e.2 = st.v) := he
    have := List.of_mem_filter he2
    have he3 : e.2 = st.v := by simpa using this
    omega
  · show ((((stepVU p st i sample).2).filter
      (fun e => e.2 = st.v)).map Prod.fst).Nodup
    exact List.Nodup.sublist
      (List.Sublist.map Prod.fst (List.filter_sublist _)) hu2nodup
  · intro e he
    have he2 : e ∈ (stepVU p st i sample).2 :=
      List.mem_of_mem_filter he
    rw [stepVU] at he2
    rcases writeVals_snd_keys p sample st.v _ _ _ e he2 with h | h
    · exact huus e h
    · obtain ⟨j, _, heq⟩ := h
      rw [heq]
      exact sampleKey_underscore p j
  · intro k hk
    have hk' : (getA (stepAttrs p st i sample) k).isSome := hk
    rcases stepAttrs_classified p st i sample
        ⟨hv01, hupar, hund, huus, hclass⟩ k hk' with hf | hloc | hdyn
    · exact Or.inl hf
    · exact Or.inr (Or.inl hloc)
    · right; right
      show (getA (stepCU p st i sample).2.1 k).isSome
      rw [stepCU, cleanup_snd_getA _ _ hu2nodup]
      have hu2 : getA (stepVU p st i sample).2 k = some st.v := by
        rw [stepVU]
        exact writeVals_snd_mem p sample st.v k _ _ _
          (mem_dynKeys_exists p sample k hdyn)
      rw [hu2]
      simp

theorem recordLoop_out_stable (dest : Nat) (p : PprofProfile) :
    ∀ (ss : List PprofSample) (i : Nat) (st : RecState) (m : Nat),
      m < st.out.length →
      (recordLoop dest p ss i st).out.get? m = st.out.get? m := by
  intro ss
  induction ss with
  | nil => intro i st m _; rfl
  | cons s rest ih =>
    intro i st m hm
    rw [recordLoop]
    have hout : (recordStep dest p st i s).out =
        if dest = DESTINATION_TYPE_INGEST_MELT
        then st.out ++ [stepAttrs p st i s] else st.out := rfl
    have hlen : st.out.length ≤ (recordStep dest p st i s).out.length := by
      rw [hout]
      by_cases hd : dest = DESTINATION_TYPE_INGEST_MELT
      · rw [if_pos hd]
        simp
      · rw [if_neg hd]
    rw [ih (i + 1) _ m (by omega), hout]
    by_cases hd : dest = DESTINATION_TYPE_INGEST_MELT
    · rw [if_pos hd]
      exact List.get?_append hm
    · rw [if_neg hd]

theorem recordLoop_emit (p : PprofProfile) :
    ∀ (ss : List PprofSample) (i₀ : Nat) (st : RecState),
      RecInv p st →
      ∀ (j : Nat) (sample : PprofSample), ss.get? j = some sample →
      ∃ r, (recordLoop DESTINATION_TYPE_INGEST_MELT p ss i₀
          st).out.get? (st.out.length + j) = some r ∧
        (∀ N, sample.locationId.length ≤ N →
          getA r (locKey N) = none) ∧
        (∀ k, (getA r k).isSome → isFixedKey p k ∨
          (∃ j', j' < sample.locationId.length ∧ k = locKey j') ∨
          k ∈ dynKeys p sample) ∧
        (∀ k ∈ dynKeys p sample, (getA r k).isSome) := by
  intro ss
  induction ss with
  | nil => intro i₀ st _ j sample h; simp at h
  | cons s rest ih =>
    intro i₀ st hinv j sample h
    rw [recordLoop]
    have hout : (recordStep DESTINATION_TYPE_INGEST_MELT p st i₀ s).out =
        st.out ++ [stepAttrs p st i₀ s] := rfl
    match j with
    | 0 =>
      rw [List.get?_cons_zero, Option.some.injEq] at h
      subst h
      refine ⟨stepAttrs p st i₀ s, ?_,
        stepAttrs_locKey_ge p st i₀ s hinv,
        stepAttrs_classified p st i₀ s hinv,
        stepAttrs_dyn_isSome p st i₀ s⟩
      rw [recordLoop_out_stable _ _ _ _ _ _
          (by rw [hout]; simp),
        hout, Nat.add_zero]
      exact List.get?_concat_length _ _
    | j + 1 =>
      rw [List.get?_cons_succ] at h
      have hinv' := recordStep_inv DESTINATION_TYPE_INGEST_MELT p st i₀ s
        hinv
      obtain ⟨r, hr, h1, h2, h3⟩ := ih (i₀ + 1)
        (recordStep DESTINATION_TYPE_INGEST_MELT p st i₀ s) hinv' j
        sample h
      refine ⟨r, ?_, h1, h2, h3⟩
      rw [← hr, hout]
      congr 1
      simp
      omega

/-- All records `_recordSamples` passes to `recordCustomEvent`:
record `i` exists iff sample `i` does, and it satisfies the emission
properties with respect to its own sample. -/
theorem recordSamples_emit (hs : Int) (p : PprofProfile) (i : Nat)
    (sample : PprofSample) (h : p.sample.get? i = some sample) :
    ∃ r, (_recordSamples hs p DESTINATION_TYPE_INGEST_MELT).get? i =
        some r ∧
      (∀ N, sample.locationId.length ≤ N → getA r (locKey N) = none) ∧
      (∀ k, (getA r k).isSome → isFixedKey p k ∨
        (∃ j', j' < sample.locationId.length ∧ k = locKey j') ∨
        k ∈ dynKeys p sample) ∧
      (∀ k ∈ dynKeys p sample, (getA r k).isSome) := by
  obtain ⟨r, hr, h1, h2, h3⟩ := recordLoop_emit p p.sample 0
    { attrs := initAttrs hs p, u := [], v := 0, prevLoc := 0, out := [] }
    (recInv_init hs p) i sample h
  refine ⟨r, ?_, h1, h2, h3⟩
  rw [_recordSamples]
  simpa using hr

/-- **C4.** For every sequence of samples marshalled in order, every
emitted record contains no `location.N` key for any `N` at or beyond that
sample's own stack depth, even when the immediately preceding sample had
a deeper stack: the stale trailing location keys of the reused record
object are removed before emission. -/
theorem claim_c4_record_width_bound (hs : Int) (p : PprofProfile)
    (i : Nat) (sample : PprofSample)
    (h : p.sample.get? i = some sample) :
    ∃ r, (_recordSamples hs p DESTINATION_TYPE_INGEST_MELT).get? i =
        some r ∧
      ∀ N, sample.locationId.length ≤ N → getA r (locKey N) = none := by
  obtain ⟨r, hr, h1, _, _⟩ := recordSamples_emit hs p i sample h
  exact ⟨r, hr, h1⟩

/-- A concrete pprof profile used by the witnesses: one value column,
two samples (stack depth 2 then stack depth 1). -/
def pprofExample : PprofProfile :=
  { sampleType := [⟨1, 2⟩],
    sample := [⟨[10], [1, 2]⟩, ⟨[20], [1]⟩],
    location := [⟨1, [⟨1, 5⟩]⟩, ⟨2, [⟨1, 7⟩]⟩],
    functions := [⟨1, 3⟩],
    stringTable := ["", "objects", "bytes", "main"],
    timeNanos := 0, durationNanos := 0, periodType := ⟨1, 2⟩,
    period := 512 }

/-- Witness for C4: the second sample of `pprofExample` has depth 1
while the first had depth 2. -/
theorem claim_c4_record_width_bound_witness :
    ∃ r, (_recordSamples 0 pprofExample
        DESTINATION_TYPE_INGEST_MELT).get? 1 = some r ∧
      ∀ N, (PprofSample.mk [20] [1]).locationId.length ≤ N →
        getA r (locKey N) = none :=
  claim_c4_record_width_bound 0 pprofExample 1 ⟨[20], [1]⟩ rfl

/-- **C7.** For every sequence of samples marshalled in order, each
emitted record's dynamic metric keys are exactly those written for the
current sample: every key on the record at the moment of emission is a
fixed key, a location key below the sample's depth, or one of the
current sample's dynamic metric keys (so no key named from a different
sample's type/unit pair survives), and every current dynamic key is
present — even though the record accumulator is reused across samples
and the cleanup flips a parity flag each call. -/
theorem claim_c7_dynamic_key_hygiene (hs : Int) (p : PprofProfile)
    (i : Nat) (sample : PprofSample)
    (h : p.sample.get? i = some sample) :
    ∃ r, (_recordSamples hs p DESTINATION_TYPE_INGEST_MELT).get? i =
        some r ∧
      (∀ k, (getA r k).isSome → isFixedKey p k ∨
        (∃ j', j' < sample.locationId.length ∧ k = locKey j') ∨
        k ∈ dynKeys p sample) ∧
      (∀ k ∈ dynKeys p sample, (getA r k).isSome) := by
  obtain ⟨r, hr, _, h2, h3⟩ := recordSamples_emit hs p i sample h
  exact ⟨r, hr, h2, h3⟩

/-- Witness for C7: the first sample of `pprofExample`. -/
theorem claim_c7_dynamic_key_hygiene_witness :
    ∃ r, (_recordSamples 0 pprofExample
        DESTINATION_TYPE_INGEST_MELT).get? 0 = some r ∧
      (∀ k, (getA r k).isSome → isFixedKey pprofExample k ∨
        (∃ j', j' < (PprofSample.mk [10] [1, 2]).locationId.length ∧
          k = locKey j') ∨
        k ∈ dynKeys pprofExample ⟨[10], [1, 2]⟩) ∧
      (∀ k ∈ dynKeys pprofExample ⟨[10], [1, 2]⟩, (getA r k).isSome) :=
  claim_c7_dynamic_key_hygiene 0 pprofExample 0 ⟨[10], [1, 2]⟩ rfl

/-- **C9.** The metric-key naming function is pure and deterministic,
but it does *not* normalize the whole string: the regex
`/(\p{White_Space})|(\p{L})|(_)/u` is used without the `g` flag, so
`String.replace` rewrites only the first matching character, and a
character matching no alternative (digits, punctuation) is simply left
in place by `replace` — the code's own inline comments
("unicode white space character -> underscore",
"any other character -> remove the character") describe a whole-string
normalization that the code does not perform.  Evaluating the code at
the failing input: the space survives (the first match is the letter
`i`, replaced by itself) and the `!` is never removed. -/
theorem claim_c9_normalizer_first_match_only :
    _normalizeAttrNameFromSampleValueType "inuse space" "bytes!" =
      "inuse space_bytes!" ∧
    ' ' ∈ (_normalizeAttrNameFromSampleValueType "inuse space"
      "bytes!").data ∧
    '!' ∈ (_normalizeAttrNameFromSampleValueType "inuse space"
      "bytes!").data := by
  decide

/-! ## The harvest scheduler (`_scheduleHarvests`) as a trace model

Each timer fire runs one harvest for one engine; the two engines share
one `harvestSeq` counter.  A harvest either completes (records are
emitted, or a local file rotated, with the counter value *before* the
increment) and then increments the counter, or throws, is logged, and
leaves the counter untouched. -/

/-- One scheduled harvest outcome: which engine fired and whether the
harvest completed or threw. -/
inductive HEvent where
  | cpuOk | cpuFail | heapOk | heapFail
deriving DecidableEq, Repr

/-- The effect of one harvest on the shared `harvestSeq`
(`profiler.harvestSeq += 1` after a successful `await`, nothing in the
`catch` branch). -/
def stepSeq (s : Nat) : HEvent → Nat
  | .cpuOk => s + 1
  | .heapOk => s + 1
  | .cpuFail => s
  | .heapFail => s

/-- The shared counter after a trace of harvests. -/
def runSeq (s : Nat) : List HEvent → Nat
  | [] => s
  | e :: t => runSeq (stepSeq s e) t

/-- Number of successful harvests (either engine) in a trace. -/
def okCount : List HEvent → Nat
  | [] => 0
  | .cpuOk :: t => okCount t + 1
  | .heapOk :: t => okCount t + 1
  | _ :: t => okCount t

/-- Number of successful heap harvests in a trace. -/
def heapOks : List HEvent → Nat
  | [] => 0
  | .heapOk :: t => heapOks t + 1
  | _ :: t => heapOks t

/-- The `harvest_seq` values emitted by the successful CPU harvests of a
trace: each harvest's records carry the counter value read before the
post-harvest increment. -/
def cpuEmits (s : Nat) : List HEvent → List Nat
  | [] => []
  | .cpuOk :: t => s :: cpuEmits (s + 1) t
  | e :: t => cpuEmits (stepSeq s e) t

/-- `true` iff every adjacent pair of the list differs by exactly 1. -/
def consecutiveDiffOne : List Nat → Bool
  | a :: b :: t => (b = a + 1) && consecutiveDiffOne (b :: t)
  | _ => true

theorem cpuEmits_append (a b : List HEvent) :
    ∀ s, cpuEmits s (a ++ b) = cpuEmits s a ++ cpuEmits (runSeq s a) b := by
  induction a with
  | nil => intro s; rfl
  | cons e t ih =>
    intro s
    cases e with
    | cpuOk =>
      show s :: cpuEmits (s + 1) (t ++ b) =
        (s :: cpuEmits (s + 1) t) ++ cpuEmits (runSeq (s + 1) t) b
      rw [ih (s + 1)]
      rfl
    | cpuFail =>
      show cpuEmits s (t ++ b) = cpuEmits s t ++ cpuEmits (runSeq s t) b
      exact ih s
    | heapOk =>
      show cpuEmits (s + 1) (t ++ b) =
        cpuEmits (s + 1) t ++ cpuEmits (runSeq (s + 1) t) b
      exact ih (s + 1)
    | heapFail =>
      show cpuEmits s (t ++ b) = cpuEmits s t ++ cpuEmits (runSeq s t) b
      exact ih s

theorem cpuEmits_no_cpuOk (mid : List HEvent) (h : HEvent.cpuOk ∉ mid) :
    ∀ s, cpuEmits s mid = [] := by
  induction mid with
  | nil => intro s; rfl
  | cons e t ih =>
    intro s
    cases e with
    | cpuOk => exact absurd (by simp) h
    | cpuFail => exact ih (fun hm => h (by simp [hm])) s
    | heapOk => exact ih (fun hm => h (by simp [hm])) (s + 1)
    | heapFail => exact ih (fun hm => h (by simp [hm])) s

theorem runSeq_no_cpuOk (mid : List HEvent) (h : HEvent.cpuOk ∉ mid) :
    ∀ s, runSeq s mid = s + heapOks mid := by
  induction mid with
  | nil => intro s; rfl
  | cons e t ih =>
    intro s
    cases e with
    | cpuOk => exact absurd (by simp) h
    | cpuFail =>
      show runSeq s t = s + heapOks t
      exact ih (fun hm => h (by simp [hm])) s
    | heapOk =>
      show runSeq (s + 1) t = s + (heapOks t + 1)
      rw [ih (fun hm => h (by simp [hm])) (s + 1)]
      omega
    | heapFail =>
      show runSeq s t = s + heapOks t
      exact ih (fun hm => h (by simp [hm])) s

/-- Counterexample to **C5** as stated: with the shared counter, a
successful heap harvest between two successful CPU harvests makes the
consecutive emitted `harvest_seq` values differ by 2, not 1. -/
theorem claim_c5_counterexample :
    cpuEmits 0 [.cpuOk, .heapOk, .cpuOk] = [0, 2] ∧
    consecutiveDiffOne (cpuEmits 0 [.cpuOk, .heapOk, .cpuOk]) = false := by
  decide

/-- **C5 (amended).** The shared harvest sequence counter is incremented
exactly once per successfully completed harvest of either engine and
never on a failed one (the final counter equals the initial value plus
the number of successful harvests); two consecutive successful CPU
harvests emit `harvest_seq` values that differ by exactly one plus the
number of successful heap harvests completed between them — exactly 1
only when no heap harvest intervenes. -/
theorem claim_c5_harvest_seq :
    (∀ (t : List HEvent) (s : Nat), runSeq s t = s + okCount t) ∧
    (∀ (s : Nat) (pre mid post : List HEvent), HEvent.cpuOk ∉ mid →
      cpuEmits s (pre ++ .cpuOk :: (mid ++ .cpuOk :: post)) =
        cpuEmits s pre ++ runSeq s pre ::
          (runSeq s pre + 1 + heapOks mid) ::
          cpuEmits (runSeq s pre + 1 + heapOks mid + 1) post) := by
  constructor
  · intro t
    induction t with
    | nil => intro s; rfl
    | cons e t ih =>
      intro s
      cases e with
      | cpuOk =>
        show runSeq (s + 1) t = s + (okCount t + 1)
        rw [ih (s + 1)]
        omega
      | cpuFail =>
        show runSeq s t = s + okCount t
        exact ih s
      | heapOk =>
        show runSeq (s + 1) t = s + (okCount t + 1)
        rw [ih (s + 1)]
        omega
      | heapFail =>
        show runSeq s t = s + okCount t
        exact ih s
  · intro s pre mid post hmid
    have h1 : cpuEmits (runSeq s pre)
        (.cpuOk :: (mid ++ .cpuOk :: post)) =
        runSeq s pre ::
          cpuEmits (runSeq s pre + 1) (mid ++ .cpuOk :: post) := rfl
    have h2 : cpuEmits (runSeq s pre + 1) (mid ++ .cpuOk :: post) =
        cpuEmits (runSeq s pre + 1) mid ++
          cpuEmits (runSeq (runSeq s pre + 1) mid) (.cpuOk :: post) :=
      cpuEmits_append mid _ _
    rw [cpuEmits_append pre _ s, h1, h2, cpuEmits_no_cpuOk mid hmid,
      runSeq_no_cpuOk mid hmid, List.nil_append]
    rfl

/-- Witness for the amended C5: a concrete trace with one successful
heap harvest between two successful CPU harvests. -/
theorem claim_c5_harvest_seq_witness :
    runSeq 0 [HEvent.cpuOk, .heapOk, .cpuOk] =
      0 + okCount [HEvent.cpuOk, .heapOk, .cpuOk] ∧
    cpuEmits 0 ([] ++ .cpuOk :: ([.heapOk] ++ .cpuOk :: [])) =
      cpuEmits 0 [] ++ runSeq 0 [] ::
        (runSeq 0 [] + 1 + heapOks [.heapOk]) ::
        cpuEmits (runSeq 0 [] + 1 + heapOks [.heapOk] + 1) [] :=
  ⟨claim_c5_harvest_seq.1 [HEvent.cpuOk, .heapOk, .cpuOk] 0,
   claim_c5_harvest_seq.2 0 [] [.heapOk] [] (by decide)⟩

/-! ## `Profiler.prototype.start` control flow (lifecycle rollback)

The callback-based variant connects the session, starts the CPU
profiler, then the heap profiler; on heap failure it invokes
`callback(err)` *first* and only then calls `profiler.stop()`.  The
promise-based pprof variant calls `time.start()` then `heap.start(...)`,
and an exception from the latter propagates with no rollback at all. -/

/-- Observable actions of `start()`, in program order. -/
inductive StartAction where
  | connectSession
  | cpuStarted
  | scheduleHarvests
  | surfaceError
  | initiateStopCpu
  | surfaceSuccess
deriving DecidableEq, Repr

/-- The action trace of the callback variant's `start()` as a function
of whether the CPU and heap engine starts succeed. -/
def startTrace (cpuOk heapOk : Bool) : List StartAction :=
  [.connectSession] ++
    (if cpuOk then
      [.cpuStarted] ++
        (if heapOk then [.scheduleHarvests, .surfaceSuccess]
         else [.surfaceError, .initiateStopCpu])
     else [.surfaceError])

/-- The action trace of the pprof variant's `start()` when the CPU
engine started and `heap.start` throws: the exception propagates to the
caller and nothing further runs. -/
def startTracePprof : List StartAction :=
  [.cpuStarted, .surfaceError]

/-- Whether the CPU-engine stop has been initiated before the first
point at which an error is surfaced to the caller. -/
def stopBeforeError : List StartAction → Bool
  | [] => false
  | .surfaceError :: _ => false
  | .initiateStopCpu :: _ => true
  | _ :: t => stopBeforeError t

/-- Whether the CPU engine is still running at the moment the error is
surfaced (`none` when no error is surfaced). -/
def cpuRunningWhenErrorSurfaced : List StartAction → Bool → Option Bool
  | [], _ => none
  | .surfaceError :: _, r => some r
  | .cpuStarted :: t, _ => cpuRunningWhenErrorSurfaced t true
  | .initiateStopCpu :: t, _ => cpuRunningWhenErrorSurfaced t false
  | _ :: t, r => cpuRunningWhenErrorSurfaced t r

/-- Counterexample to **C6** as stated: in the run where the CPU engine
started and the heap engine failed to start, the CPU engine is *not*
stopped before the error is surfaced — `callback(err)` runs first, and
at that moment the CPU engine is still running. -/
theorem claim_c6_counterexample :
    ¬(stopBeforeError (startTrace true false) = true ∧
      cpuRunningWhenErrorSurfaced (startTrace true false) false =
        some false) := by
  decide

/-- **C6 (amended).** If the heap engine fails to start after the CPU
engine started successfully, the callback variant surfaces the error to
the caller first and then initiates the CPU-engine stop (rollback after,
not before, so the CPU engine is still running at the moment the error
is surfaced); the pprof variant performs no rollback at all (the
propagated exception ends `start()` with the CPU engine running). -/
theorem claim_c6_rollback_order :
    startTrace true false =
      [.connectSession, .cpuStarted, .surfaceError, .initiateStopCpu] ∧
    cpuRunningWhenErrorSurfaced (startTrace true false) false =
      some true ∧
    StartAction.initiateStopCpu ∈ startTrace true false ∧
    cpuRunningWhenErrorSurfaced startTracePprof false = some true ∧
    StartAction.initiateStopCpu ∉ startTracePprof := by
  decide

/-! ## Local-file rotation (`_openLocalFiles` and the collect loops)

With the local-file destination, `_openLocalFiles` creates the
unsuffixed `cpu.pprof` / `heap.pprof`; each successful harvest writes
and closes the current file and opens `cpu.pprof${'$'}{harvestSeq}` — with
the counter value read *before* the post-harvest increment, so the first
rotated file is `cpu.pprof0`. -/

/-- The rotation file names created by the CPU harvests of a trace. -/
def cpuRotationFiles (s : Nat) : List HEvent → List String
  | [] => []
  | .cpuOk :: t => ("cpu.pprof" ++ natRepr s) :: cpuRotationFiles (s + 1) t
  | e :: t => cpuRotationFiles (stepSeq s e) t

/-- The rotation file names created by the heap harvests of a trace. -/
def heapRotationFiles (s : Nat) : List HEvent → List String
  | [] => []
  | .heapOk :: t =>
    ("heap.pprof" ++ natRepr s) :: heapRotationFiles (s + 1) t
  | e :: t => heapRotationFiles (stepSeq s e) t

/-- The full series of CPU profile file names: the initial unsuffixed
file from `_openLocalFiles`, then one rotation file per successful CPU
harvest. -/
def cpuFileSeries (t : List HEvent) : List String :=
  "cpu.pprof" :: cpuRotationFiles 0 t

/-- The full series of heap profile file names. -/
def heapFileSeries (t : List HEvent) : List String :=
  "heap.pprof" :: heapRotationFiles 0 t

/-- Counterexample to **C8** as stated: two successful CPU harvests
produce `cpu.pprof`, `cpu.pprof0`, `cpu.pprof1` — not `cpu.pprof`,
`cpu.pprof1`, `cpu.pprof2`. -/
theorem claim_c8_counterexample :
    cpuFileSeries [.cpuOk, .cpuOk] =
      ["cpu.pprof", "cpu.pprof0", "cpu.pprof1"] ∧
    cpuFileSeries [.cpuOk, .cpuOk] ≠
      ["cpu.pprof", "cpu.pprof1", "cpu.pprof2"] := by
  decide

theorem cpuRotationFiles_replicate (n : Nat) :
    ∀ s, cpuRotationFiles s (List.replicate n .cpuOk) =
      (List.range n).map (fun k => "cpu.pprof" ++ natRepr (s + k)) := by
  induction n with
  | zero => intro s; rfl
  | succ n ih =>
    intro s
    rw [List.replicate_succ]
    show ("cpu.pprof" ++ natRepr s) ::
      cpuRotationFiles (s + 1) (List.replicate n .cpuOk) = _
    rw [ih (s + 1), List.range_succ_eq_map, List.map_cons, List.map_map]
    refine congrArg₂ _ (by rw [Nat.add_zero]) ?_
    apply List.map_congr_left
    intro k _
    show "cpu.pprof" ++ natRepr (s + 1 + k) = "cpu.pprof" ++ natRepr (s + (k + 1))
    rw [(show s + 1 + k = s + (k + 1) by omega)]

theorem heapRotationFiles_replicate (n : Nat) :
    ∀ s, heapRotationFiles s (List.replicate n .heapOk) =
      (List.range n).map (fun k => "heap.pprof" ++ natRepr (s + k)) := by
  induction n with
  | zero => intro s; rfl
  | succ n ih =>
    intro s
    rw [List.replicate_succ]
    show ("heap.pprof" ++ natRepr s) ::
      heapRotationFiles (s + 1) (List.replicate n .heapOk) = _
    rw [ih (s + 1), List.range_succ_eq_map, List.map_cons, List.map_map]
    refine congrArg₂ _ (by rw [Nat.add_zero]) ?_
    apply List.map_congr_left
    intro k _
    show "heap.pprof" ++ natRepr (s + 1 + k) =
      "heap.pprof" ++ natRepr (s + (k + 1))
    rw [(show s + 1 + k = s + (k + 1) by omega)]

/-- **C8 (amended).** The first profile file of an engine uses the
unsuffixed base name and every rotation file carries the shared harvest
sequence value read at rotation time (before that harvest's increment)
as its suffix: with a single engine harvesting successfully `n` times,
the series is `cpu.pprof`, `cpu.pprof0`, …, `cpu.pprof(n-1)` — the first
rotated file carries suffix `0`, not `1` — and likewise for heap. -/
theorem claim_c8_file_rotation_series (n : Nat) :
    cpuFileSeries (List.replicate n .cpuOk) =
      "cpu.pprof" :: (List.range n).map
        (fun k => "cpu.pprof" ++ natRepr k) ∧
    heapFileSeries (List.replicate n .heapOk) =
      "heap.pprof" :: (List.range n).map
        (fun k => "heap.pprof" ++ natRepr k) := by
  constructor
  · rw [cpuFileSeries, cpuRotationFiles_replicate n 0]
    refine congrArg _ (List.map_congr_left ?_)
    intro k _
    rw [Nat.zero_add]
  · rw [heapFileSeries, heapRotationFiles_replicate n 0]
    refine congrArg _ (List.map_congr_left ?_)
    intro k _
    rw [Nat.zero_add]

end Profiler
